import Mathlib

/-!
Verification of the OpenFeeder sidecar against its natural-language
specification.  Each Python function relevant to the frozen claims is
shallowly embedded as an executable Lean definition (strings as `String` /
`List Char`, floats restricted to the comparisons actually performed are
`Int`, fallible code is `Option`/`Except`), and the claims are settled as
theorems about those definitions.
-/

/-! ## Shared string utilities (Python string semantics) -/

/-- ASCII whitespace recognised by Python's `str.strip()` and the regex
class `\s` (space, tab, newline, carriage return, vertical tab, form feed). -/
def pyIsSpace (c : Char) : Bool :=
  c = ' ' || c = '\t' || c = '\n' || c = '\r' || c = '\x0b' || c = '\x0c'

/-- Python `str.strip()` on a character list: drop ASCII whitespace from
both ends. -/
def pyStripList (l : List Char) : List Char :=
  ((l.dropWhile pyIsSpace).reverse.dropWhile pyIsSpace).reverse

/-- Python `str.strip()` on a `String`. -/
def pyStrip (s : String) : String :=
  ⟨pyStripList s.data⟩

/-- Numeric value of a digit run (`int()` applied to a `\d+` group). -/
def digitsToNat (ds : List Char) : Nat :=
  ds.foldl (fun n c => n * 10 + (c.toNat - 48)) 0

/-- Python `" ".join` on a list of strings. -/
def joinSp : List String → String
  | [] => ""
  | [s] => s
  | s :: rest => s ++ " " ++ joinSp rest

/-! ## C5 — `parse_iso_duration` (src/sidecar/chunker.py lines 108-133)

The source matches the anchored, case-insensitive regex
`^P(?:(\d+)D)?T?(?:(\d+)H)?(?:(\d+)M)?(?:(\d+)S)?$` against the stripped
input.  Because every numeric group is terminated by a distinct unit
letter, the regex is equivalent to the deterministic recursive-descent
parser below: each unit is consumed only when a digit run is immediately
followed by its letter.  A matched group carries `some n` (so a present
`0H` is distinguished from an absent hour group, mirroring the regex
groups being `None` or a string). -/

structure DurParts where
  days : Option Nat
  hours : Option Nat
  minutes : Option Nat
  seconds : Option Nat
deriving DecidableEq

/-- Consume `(\d+)X` (case-insensitive unit letter `letter`) from the front
of `l` when present; otherwise leave `l` untouched. -/
def matchUnit (letter : Char) (l : List Char) : Option Nat × List Char :=
  match l.span (·.isDigit) with
  | ([], _) => (none, l)
  | (_ :: _, []) => (none, l)
  | (d :: ds, c :: rest) =>
    if c.toLower = letter then (some (digitsToNat (d :: ds)), rest) else (none, l)

/-- Match the whole duration regex against a character list. -/
def parseDurationChars (l : List Char) : Option DurParts :=
  match l with
  | [] => none
  | c :: rest =>
    if c.toLower = 'p' then
      let (d, r1) := matchUnit 'd' rest
      let r2 := match r1 with
        | t :: r => if t.toLower = 't' then r else r1
        | [] => r1
      let (h, r3) := matchUnit 'h' r2
      let (m, r4) := matchUnit 'm' r3
      let (s, r5) := matchUnit 's' r4
      if r5 = [] then some ⟨d, h, m, s⟩ else none
    else none

/-- Value of a regex group under `int(v) if v else 0`. -/
def durValue : Option Nat → Nat
  | some n => n
  | none => 0

/-- The `parts` list built by the source: one human-readable component per
nonzero unit, in the order days, hours, minutes, seconds. -/
def durRender (p : DurParts) : List String :=
  (if durValue p.days ≠ 0 then [toString (durValue p.days) ++ "d"] else []) ++
  (if durValue p.hours ≠ 0 then [toString (durValue p.hours) ++ "h"] else []) ++
  (if durValue p.minutes ≠ 0 then [toString (durValue p.minutes) ++ " min"] else []) ++
  (if durValue p.seconds ≠ 0 then [toString (durValue p.seconds) ++ "s"] else [])

/-- Embedding of `parse_iso_duration`. -/
def parseIsoDuration (duration : String) : String :=
  if duration = "" then ""
  else
    match parseDurationChars (pyStripList duration.data) with
    | none => duration
    | some p =>
      let parts := durRender p
      if parts = [] then duration else joinSp parts

theorem string_of_length_zero (s : String) (h : s.length = 0) : s = "" := by
  cases s with
  | mk d => cases d with
    | nil => rfl
    | cons c t => simp [String.length] at h

theorem joinSp_ne_empty (a : String) (l : List String) (ha : a ≠ "") :
    joinSp (a :: l) ≠ "" := by
  cases l with
  | nil => simpa [joinSp] using ha
  | cons b t =>
    intro h
    have h2 : a ++ " " ++ joinSp (b :: t) = "" := h
    have hlen : (a ++ " " ++ joinSp (b :: t)).length = 0 := by rw [h2]; rfl
    simp [String.length_append] at hlen
    have : a.length = 0 := by omega
    exact ha (string_of_length_zero a this)

theorem durRender_mem_ne_empty (p : DurParts) (s : String) (hs : s ∈ durRender p) :
    s ≠ "" := by
  have hne : ∀ (n : Nat) (suf : String), suf ≠ "" → toString n ++ suf ≠ "" := by
    intro n suf hsuf h
    have hlen : (toString n ++ suf).length = 0 := by rw [h]; rfl
    simp [String.length_append] at hlen
    exact hsuf (string_of_length_zero suf hlen.2)
  simp only [durRender, List.mem_append] at hs
  rcases hs with ((h1 | h2) | h3) | h4
  · split at h1 <;> simp at h1
    subst h1; exact hne _ _ (by decide)
  · split at h2 <;> simp at h2
    subst h2; exact hne _ _ (by decide)
  · split at h3 <;> simp at h3
    subst h3; exact hne _ _ (by decide)
  · split at h4 <;> simp at h4
    subst h4; exact hne _ _ (by decide)

/-- C5 counterexample: `PT0H30M` matches the duration regex with an hours
group that is present (it captured the digits `0`), yet the rendered output
`30 min` contains no hour component at all, so the output is not a
composite in exactly the units present in the input. -/
theorem c5_units_present_counterexample :
    parseDurationChars (pyStripList "PT0H30M".data) =
      some ⟨none, some 0, some 30, none⟩ ∧
    parseIsoDuration "PT0H30M" = "30 min" ∧
    parseIsoDuration "PT0H30M" ≠ "0h 30 min" ∧
    'h' ∉ (parseIsoDuration "PT0H30M").data := by
  refine ⟨by decide, by decide, by decide, by decide⟩

/-- C5 (amended): `parse_iso_duration` is empty iff its input is empty; a
non-empty input that does not match the duration regex is returned
verbatim, as is a matching input all of whose captured unit values are
zero; a matching input renders exactly its nonzero units, as on the spec's
own examples `PT25M`, `PT1H30M` and `P1DT2H`. -/
theorem c5_parse_iso_duration_amended :
    (∀ d : String, parseIsoDuration d = "" ↔ d = "") ∧
    (∀ d : String, d ≠ "" → parseDurationChars (pyStripList d.data) = none →
      parseIsoDuration d = d) ∧
    (∀ (d : String) (p : DurParts), parseDurationChars (pyStripList d.data) = some p →
      durValue p.days = 0 → durValue p.hours = 0 → durValue p.minutes = 0 →
      durValue p.seconds = 0 → parseIsoDuration d = d) ∧
    parseIsoDuration "PT25M" = "25 min" ∧
    parseIsoDuration "PT1H30M" = "1h 30 min" ∧
    parseIsoDuration "P1DT2H" = "1d 2h" := by
  refine ⟨?_, ?_, ?_, by decide, by decide, by decide⟩
  · intro d
    constructor
    · intro h
      by_contra hne
      rw [parseIsoDuration, if_neg hne] at h
      rcases hm : parseDurationChars (pyStripList d.data) with _ | p
      · rw [hm] at h; exact hne h
      · rw [hm] at h
        simp only [] at h
        rcases hr : durRender p with _ | ⟨a, rest⟩
        · rw [hr] at h; simp at h; exact hne h
        · rw [hr] at h
          simp only [if_neg (List.cons_ne_nil a rest)] at h
          have ha : a ≠ "" := durRender_mem_ne_empty p a (by rw [hr]; exact List.mem_cons_self a rest)
          exact joinSp_ne_empty a rest ha h
    · intro h; subst h; rfl
  · intro d hne hm
    rw [parseIsoDuration, if_neg hne, hm]
  · intro d p hm hd hh hmi hs
    rw [parseIsoDuration]
    split
    · rename_i h; rw [h]
    · rw [hm]
      simp only [durRender, hd, hh, hmi, hs]
      simp

/-- C5 witness: the amended theorem applied at the concrete non-matching
input `"x"`, which is returned verbatim. -/
theorem c5_parse_iso_duration_amended_witness : parseIsoDuration "x" = "x" :=
  c5_parse_iso_duration_amended.2.1 "x" (by decide) (by decide)

/-! ## C3 — JSON-LD candidate selection (src/sidecar/chunker.py 366-407)

`_extract_jsonld` first collects every parseable JSON-LD object into a
flat `candidates` list (flattening `@graph` and top-level arrays); the
claim concerns the subsequent selection loop, which is embedded here over
an arbitrary candidate list.  A candidate's `@type` may be a JSON string
or a JSON array of strings; `payload` stands for the remaining fields of
the object, so that distinct candidates remain distinguishable. -/

inductive LdType where
  | str (s : String)
  | seq (l : List String)
deriving DecidableEq

/-- Normalisation `types = raw_type if isinstance(raw_type, list) else [raw_type]`. -/
def ldTypes : LdType → List String
  | .str s => [s]
  | .seq l => l

structure LdCandidate where
  rawType : LdType
  payload : Nat
deriving DecidableEq

/-- The `priority` list as written in the source (line 397). -/
def ldPriority : List String :=
  ["Recipe", "Article", "NewsArticle", "BlogPosting", "Product", "Event"]

/-- Inner loop: first candidate whose (normalised) type list contains `p`. -/
def findByType (cs : List LdCandidate) (p : String) : Option LdCandidate :=
  cs.find? (fun c => (ldTypes c.rawType).contains p)

/-- Outer loop over the priority list, falling back to the first candidate. -/
def selectByPriority : List String → List LdCandidate → Option LdCandidate
  | [], cs => cs.head?
  | p :: ps, cs =>
    match findByType cs p with
    | some c => some c
    | none => selectByPriority ps cs

/-- Embedding of the candidate-selection portion of `_extract_jsonld`. -/
def extractJsonldSelect (cs : List LdCandidate) : Option LdCandidate :=
  selectByPriority ldPriority cs

/-- Modelled from the spec: the priority order the claim states
(`Recipe > NewsArticle > Article > BlogPosting > Product > Event`),
used only for comparison against the source's selection. -/
def ldPrioritySpecOrder : List String :=
  ["Recipe", "NewsArticle", "Article", "BlogPosting", "Product", "Event"]

/-- Modelled from the spec: selection under the claimed priority order. -/
def extractJsonldSelectSpecOrder (cs : List LdCandidate) : Option LdCandidate :=
  selectByPriority ldPrioritySpecOrder cs

/-- C3 counterexample: with one NewsArticle candidate and one Article
candidate the claimed order (NewsArticle before Article) would select the
NewsArticle, but the source's priority list puts `"Article"` before
`"NewsArticle"` and selects the Article candidate. -/
theorem c3_priority_counterexample :
    extractJsonldSelect [⟨.str "NewsArticle", 1⟩, ⟨.str "Article", 2⟩] =
      some ⟨.str "Article", 2⟩ ∧
    extractJsonldSelectSpecOrder [⟨.str "NewsArticle", 1⟩, ⟨.str "Article", 2⟩] =
      some ⟨.str "NewsArticle", 1⟩ ∧
    extractJsonldSelect [⟨.str "NewsArticle", 1⟩, ⟨.str "Article", 2⟩] ≠
      extractJsonldSelectSpecOrder [⟨.str "NewsArticle", 1⟩, ⟨.str "Article", 2⟩] := by
  refine ⟨by decide, by decide, by decide⟩

theorem selectByPriority_characterisation (ps : List String) (cs : List LdCandidate) :
    selectByPriority ps cs =
      match (ps.filter (fun p => cs.any (fun c => (ldTypes c.rawType).contains p))).head? with
      | some p => findByType cs p
      | none => cs.head? := by
  induction ps with
  | nil => rfl
  | cons p ps ih =>
    by_cases hp : cs.any (fun c => (ldTypes c.rawType).contains p)
    · have hf : findByType cs p ≠ none := by
        intro hnone
        rcases List.any_eq_true.mp hp with ⟨c, hc, hcp⟩
        exact absurd (List.find?_eq_none.mp hnone c hc) (by simpa using hcp)
      rcases hsome : findByType cs p with _ | c
      · exact absurd hsome hf
      · simp only [selectByPriority, hsome, List.filter_cons, hp, if_true, List.head?_cons]
    · have hf : findByType cs p = none := by
        apply List.find?_eq_none.mpr
        intro c hc
        intro hcp
        exact hp (List.any_eq_true.mpr ⟨c, hc, hcp⟩)
      simp only [selectByPriority, hf]
      rw [ih]
      simp only [List.filter_cons, hp, if_false, Bool.false_eq_true]

theorem selectByPriority_mem (ps : List String) (cs : List LdCandidate)
    (c : LdCandidate) (h : selectByPriority ps cs = some c) : c ∈ cs := by
  induction ps with
  | nil =>
    cases cs with
    | nil => simp [selectByPriority] at h
    | cons a t =>
      simp [selectByPriority] at h
      simp [h]
  | cons p ps ih =>
    simp only [selectByPriority] at h
    rcases hf : findByType cs p with _ | c'
    · rw [hf] at h; exact ih h
    · rw [hf] at h
      cases h
      exact List.mem_of_find?_eq_some hf

/-- C3 (amended): the selection is by the priority order
`Recipe > Article > NewsArticle > BlogPosting > Product > Event`
(as in the source, with Article ahead of NewsArticle): the selected
candidate is the first candidate matching the highest-priority type any
candidate matches, where a candidate whose `@type` is a sequence matches a
type if any element of the sequence equals it; when no candidate matches
any priority type the first candidate is selected; a selected candidate is
always drawn from the candidate list. -/
theorem c3_jsonld_selection_amended (cs : List LdCandidate) :
    (extractJsonldSelect cs =
      match (ldPriority.filter
          (fun p => cs.any (fun c => (ldTypes c.rawType).contains p))).head? with
      | some p => findByType cs p
      | none => cs.head?) ∧
    (∀ c : LdCandidate, extractJsonldSelect cs = some c → c ∈ cs) := by
  exact ⟨selectByPriority_characterisation ldPriority cs,
    fun c h => selectByPriority_mem ldPriority cs c h⟩

/-- C3 witness: the amended theorem's membership conjunct applied to a
concrete single-candidate list. -/
theorem c3_jsonld_selection_amended_witness :
    (⟨.str "Recipe", 0⟩ : LdCandidate) ∈ [(⟨.str "Recipe", 0⟩ : LdCandidate)] :=
  (c3_jsonld_selection_amended [⟨.str "Recipe", 0⟩]).2 _ (by decide)

/-! ## C8 — webhook update (src/sidecar/main.py 433-519)

`_process_update` iterates over the relative paths; each iteration either
succeeds, records an HTTP error (upsert with status ≥ 400), or records a
raised exception, and in every case continues with the next path.  The
outcome of the external effects for one absolute URL (the webhook fetch /
indexer call) is abstracted as `UrlOutcome`; for `delete` no fetch
happens, so `resp` simply means the indexer and tombstone calls returned. -/

inductive UrlOutcome where
  | resp (status : Nat)
  | raise (msg : String)
deriving DecidableEq

inductive WebhookAction where
  | upsert
  | delete
deriving DecidableEq

/-- `full_url = SITE_URL.rstrip("/") + "/" + relative_url.lstrip("/")`. -/
def resolveFullUrl (siteUrl rel : String) : String :=
  (⟨(siteUrl.data.reverse.dropWhile (· = '/')).reverse⟩ : String) ++ "/" ++
    (⟨rel.data.dropWhile (· = '/')⟩ : String)

/-- One iteration of the `_process_update` loop: `none` means the URL was
processed successfully, `some msg` the recorded error string. -/
def processUpdateStep (siteUrl : String) (env : String → UrlOutcome)
    (action : WebhookAction) (rel : String) : Option String :=
  let full := resolveFullUrl siteUrl rel
  match action, env full with
  | .delete, .raise m => some (full ++ ": " ++ m)
  | .delete, .resp _ => none
  | .upsert, .raise m => some (full ++ ": " ++ m)
  | .upsert, .resp s => if 400 ≤ s then some (full ++ ": HTTP " ++ toString s) else none

/-- Embedding of `_process_update`: returns `(processed_count, error_list)`. -/
def processUpdate (siteUrl : String) (env : String → UrlOutcome)
    (action : WebhookAction) : List String → Nat × List String
  | [] => (0, [])
  | rel :: rest =>
    match processUpdateStep siteUrl env action rel with
    | none =>
      let r := processUpdate siteUrl env action rest
      (r.1 + 1, r.2)
    | some m =>
      let r := processUpdate siteUrl env action rest
      (r.1, m :: r.2)

structure UpdateResponse where
  status : String
  processed : Nat
  errors : List String
deriving DecidableEq

/-- Embedding of the `webhook_update` handler body after auth and body
validation (`INLINE_LIMIT = 10`). -/
def webhookUpdate (siteUrl : String) (env : String → UrlOutcome)
    (action : WebhookAction) (urls : List String) : UpdateResponse :=
  if urls.length ≤ 10 then
    let r := processUpdate siteUrl env action urls
    ⟨"ok", r.1, r.2⟩
  else
    ⟨"queued", 0, []⟩

theorem processUpdate_characterisation (siteUrl : String) (env : String → UrlOutcome)
    (action : WebhookAction) (urls : List String) :
    processUpdate siteUrl env action urls =
      (urls.countP (fun r => (processUpdateStep siteUrl env action r).isNone),
       urls.filterMap (processUpdateStep siteUrl env action)) := by
  induction urls with
  | nil => rfl
  | cons rel rest ih =>
    rcases h : processUpdateStep siteUrl env action rel with _ | m
    · simp [processUpdate, h, ih, List.countP_cons, List.filterMap_cons]
    · simp [processUpdate, h, ih, List.countP_cons, List.filterMap_cons]

/-- C8: an authorized webhook request with at most 10 URLs is processed
inline and answered `{status: ok, processed: n, errors: [...]}` where `n`
counts exactly the successfully processed URLs and the error list records
exactly the failing URLs in order; a request with more than 10 URLs is
answered `{status: queued, processed: 0, errors: []}`; and processing is
per-URL independent — the result on a concatenation of two batches is the
sum/concatenation of the results on each, so one failing URL never aborts
the processing of the remaining URLs. -/
theorem c8_webhook_update (siteUrl : String) (env : String → UrlOutcome)
    (action : WebhookAction) (urls : List String) :
    (urls.length ≤ 10 → webhookUpdate siteUrl env action urls =
      ⟨"ok", urls.countP (fun r => (processUpdateStep siteUrl env action r).isNone),
        urls.filterMap (processUpdateStep siteUrl env action)⟩) ∧
    (10 < urls.length → webhookUpdate siteUrl env action urls = ⟨"queued", 0, []⟩) ∧
    (∀ l1 l2 : List String, processUpdate siteUrl env action (l1 ++ l2) =
      ((processUpdate siteUrl env action l1).1 + (processUpdate siteUrl env action l2).1,
       (processUpdate siteUrl env action l1).2 ++ (processUpdate siteUrl env action l2).2)) := by
  refine ⟨?_, ?_, ?_⟩
  · intro h
    rw [webhookUpdate, if_pos h, processUpdate_characterisation]
  · intro h
    rw [webhookUpdate, if_neg (by omega)]
  · intro l1 l2
    rw [processUpdate_characterisation, processUpdate_characterisation,
      processUpdate_characterisation, List.countP_append, List.filterMap_append]

/-- C8 witness: a concrete two-URL batch where the first URL fails with
HTTP 500 and the second succeeds — the failure is recorded and the second
URL is still processed. -/
theorem c8_webhook_update_witness :
    webhookUpdate "http://s" (fun u => if u = "http://s/bad" then .resp 500 else .resp 200)
      .upsert ["bad", "good"] =
      ⟨"ok", 1, ["http://s/bad: HTTP 500"]⟩ := by
  have h := (c8_webhook_update "http://s"
    (fun u => if u = "http://s/bad" then .resp 500 else .resp 200) .upsert ["bad", "good"]).1
    (by decide)
  rw [h]
  refine congrArg₂ _ ?_ ?_ <;> decide

/-! ## C2 — time-window queries (src/sidecar/indexer.py 339-377)

A page record as stored in the `openfeeder_pages` collection by
`index_page`.  The Unix-time floats `first_indexed_at` / `indexed_at` are
modelled as `Int` (only order comparisons occur). -/

structure PageRec where
  url : String
  title : String
  author : String
  published : String
  updated : String
  language : String
  summary : String
  chunkCount : Nat
  firstIndexedAt : Int
  indexedAt : Int
deriving DecidableEq

/-- Projection built by the `get_pages_in_range` loop; `... or None` turns
the empty string into `None`. -/
structure PageObj where
  url : String
  title : String
  published : Option String
  updated : Option String
  summary : String
deriving DecidableEq

def pageObjOf (r : PageRec) : PageObj :=
  ⟨r.url, r.title,
   if r.published = "" then none else some r.published,
   if r.updated = "" then none else some r.updated,
   r.summary⟩

/-- Window filter: a record is skipped when `since_ts` is set and
`indexed_at < since_ts`, or `until_ts` is set and `indexed_at > until_ts`. -/
def inWindow (sinceTs untilTs : Option Int) (r : PageRec) : Bool :=
  (match sinceTs with
   | some s => s ≤ r.indexedAt
   | none => true) &&
  (match untilTs with
   | some u => r.indexedAt ≤ u
   | none => true)

/-- Classification: added iff `since_ts is not None and first >= since_ts`. -/
def isAdded (sinceTs : Option Int) (r : PageRec) : Bool :=
  match sinceTs with
  | some s => s ≤ r.firstIndexedAt
  | none => false

/-- Embedding of `Indexer.get_pages_in_range` over the list of stored page
records: returns `(added, updated)`. -/
def getPagesInRange (sinceTs untilTs : Option Int) : List PageRec → List PageObj × List PageObj
  | [] => ([], [])
  | r :: rest =>
    let acc := getPagesInRange sinceTs untilTs rest
    if inWindow sinceTs untilTs r then
      if isAdded sinceTs r then (pageObjOf r :: acc.1, acc.2)
      else (acc.1, pageObjOf r :: acc.2)
    else acc

theorem getPagesInRange_characterisation (sinceTs untilTs : Option Int)
    (pages : List PageRec) :
    getPagesInRange sinceTs untilTs pages =
      ((pages.filter (fun r => inWindow sinceTs untilTs r && isAdded sinceTs r)).map pageObjOf,
       (pages.filter (fun r => inWindow sinceTs untilTs r && !isAdded sinceTs r)).map pageObjOf) := by
  induction pages with
  | nil => rfl
  | cons r rest ih =>
    by_cases hw : inWindow sinceTs untilTs r
    · by_cases ha : isAdded sinceTs r
      · simp [getPagesInRange, ih, List.filter_cons, hw, ha]
      · simp [getPagesInRange, ih, List.filter_cons, hw, ha]
    · simp [getPagesInRange, ih, List.filter_cons, hw]

/-- C2: for a window query with lower bound `S` every returned record (in
either sequence) is the projection of a stored record whose `indexed_at`
is at least `S` (and within the upper bound when one is set), a record is
returned among `added` iff its `first_indexed_at ≥ S` and among `updated`
iff `first_indexed_at < S`, and — because the pages collection is keyed by
URL, i.e. URLs are pairwise distinct — the two sequences are disjoint. -/
theorem c2_sync_window_classification (S : Int) (untilTs : Option Int)
    (pages : List PageRec) :
    (∀ o ∈ (getPagesInRange (some S) untilTs pages).1, ∃ r ∈ pages,
      pageObjOf r = o ∧ S ≤ r.indexedAt ∧ S ≤ r.firstIndexedAt ∧
      (∀ u, untilTs = some u → r.indexedAt ≤ u)) ∧
    (∀ o ∈ (getPagesInRange (some S) untilTs pages).2, ∃ r ∈ pages,
      pageObjOf r = o ∧ S ≤ r.indexedAt ∧ r.firstIndexedAt < S ∧
      (∀ u, untilTs = some u → r.indexedAt ≤ u)) ∧
    (pages.Pairwise (fun a b => a.url ≠ b.url) →
      ∀ o ∈ (getPagesInRange (some S) untilTs pages).1,
        o ∉ (getPagesInRange (some S) untilTs pages).2) := by
  have hw : ∀ r : PageRec, inWindow (some S) untilTs r = true →
      S ≤ r.indexedAt ∧ (∀ u, untilTs = some u → r.indexedAt ≤ u) := by
    intro r hr
    rw [inWindow.eq_def, Bool.and_eq_true] at hr
    refine ⟨by simpa using hr.1, ?_⟩
    intro u hu
    rw [hu] at hr
    simpa using hr.2
  refine ⟨?_, ?_, ?_⟩
  · intro o ho
    rw [getPagesInRange_characterisation] at ho
    rcases List.mem_map.mp ho with ⟨r, hr, hro⟩
    rcases List.mem_filter.mp hr with ⟨hmem, hcond⟩
    rw [Bool.and_eq_true] at hcond
    rcases hw r hcond.1 with ⟨h1, h2⟩
    exact ⟨r, hmem, hro, h1, by simpa [isAdded] using hcond.2, h2⟩
  · intro o ho
    rw [getPagesInRange_characterisation] at ho
    rcases List.mem_map.mp ho with ⟨r, hr, hro⟩
    rcases List.mem_filter.mp hr with ⟨hmem, hcond⟩
    rw [Bool.and_eq_true] at hcond
    rcases hw r hcond.1 with ⟨h1, h2⟩
    refine ⟨r, hmem, hro, h1, ?_, h2⟩
    have := hcond.2
    simp [isAdded] at this
    omega
  · intro hpw o ho hu
    rw [getPagesInRange_characterisation] at ho hu
    rcases List.mem_map.mp ho with ⟨r1, hr1, hro1⟩
    rcases List.mem_map.mp hu with ⟨r2, hr2, hro2⟩
    rcases List.mem_filter.mp hr1 with ⟨hmem1, hcond1⟩
    rcases List.mem_filter.mp hr2 with ⟨hmem2, hcond2⟩
    rw [Bool.and_eq_true] at hcond1 hcond2
    have hfirst1 : S ≤ r1.firstIndexedAt := by simpa [isAdded] using hcond1.2
    have hfirst2 : r2.firstIndexedAt < S := by
      have := hcond2.2
      simp [isAdded] at this
      omega
    have hne : r1 ≠ r2 := by
      intro h
      rw [h] at hfirst1
      omega
    have hurl : r1.url ≠ r2.url :=
      hpw.forall (fun a b h => (h ·.symm)) hmem1 hmem2 hne
    have : (pageObjOf r1).url = (pageObjOf r2).url := by rw [hro1, hro2]
    exact hurl this

/-- C2 witness: the theorem applied to a concrete two-record store with
`S = 10`: the re-ingested old record is classified updated, the new one
added, and the sequences are disjoint. -/
theorem c2_sync_window_classification_witness :
    ∃ r ∈ [({ url := "http://s/a", title := "a", author := "", published := "",
              updated := "", language := "en", summary := "", chunkCount := 1,
              firstIndexedAt := 3, indexedAt := 12 } : PageRec)], pageObjOf r =
      ⟨"http://s/a", "a", none, none, ""⟩ ∧ (10 : Int) ≤ r.indexedAt ∧
      r.firstIndexedAt < 10 ∧ (∀ u, (none : Option Int) = some u → r.indexedAt ≤ u) := by
  have h := (c2_sync_window_classification 10 none
    [{ url := "http://s/a", title := "a", author := "", published := "",
       updated := "", language := "en", summary := "", chunkCount := 1,
       firstIndexedAt := 3, indexedAt := 12 }]).2.1
  exact h ⟨"http://s/a", "a", none, none, ""⟩ (by decide)

/-! ## C1 — chunk identity invariant (src/sidecar/indexer.py 74-175, 383-392)

The two ChromaDB collections are modelled as lists keyed by id:
`chunks` (entries carry their id, their `url` metadata and `chunk_index`)
and `pages` (page records keyed by `_page_id(url)`).  The hash-based ids
`_make_id(url, i) = sha256(f"{url}::chunk::{i}")[:16]` and
`_page_id(url) = sha256(f"page::{url}")[:16]` are abstracted as function
parameters `mkId` / `pageId`; truncated SHA-256 being collision-free on
the inputs in play is expressed as an injectivity hypothesis where
needed. -/

structure ChunkEntry where
  id : String
  url : String
  chunkIndex : Nat
deriving DecidableEq

structure Store where
  chunks : List ChunkEntry
  pages : List (String × PageRec)
deriving DecidableEq

/-- Parsed page as far as `index_page` consumes it (`chunks` keeps one
entry per chunk; only their number matters for identity). -/
structure ParsedPageM where
  url : String
  title : String
  author : String
  published : String
  updated : String
  language : String
  summary : String
  chunks : List String
deriving DecidableEq

/-- ChromaDB batch upsert on the chunks collection: existing entries with a
colliding id are replaced, new ids appended (ids are unique keys). -/
def upsertChunkBatch (cs : List ChunkEntry) (new : List ChunkEntry) : List ChunkEntry :=
  cs.filter (fun c => !(new.any (fun n => n.id = c.id))) ++ new

/-- ChromaDB upsert of one page record (replace by key or append). -/
def upsertPageRec : List (String × PageRec) → String → PageRec → List (String × PageRec)
  | [], k, r => [(k, r)]
  | e :: t, k, r => if e.1 = k then (k, r) :: upsertPageRec t k r else e :: upsertPageRec t k r

/-- ChromaDB `get(ids=[k])` on the pages collection. -/
def lookupPage (ps : List (String × PageRec)) (k : String) : Option PageRec :=
  (ps.find? (fun e => e.1 = k)).map (·.2)

/-- Embedding of `Indexer.index_page`: preserve `first_indexed_at`, delete
all chunks `where url == page.url`, stop if the parsed page has no chunks
(leaving the old page record in place), else upsert the new chunks under
`_make_id(url, idx)` and upsert the page record with the new
`chunk_count`. -/
def indexPage (mkId : String → Nat → String) (pageId : String → String)
    (now : Int) (s : Store) (p : ParsedPageM) : Store :=
  let first := match lookupPage s.pages (pageId p.url) with
    | some m => m.firstIndexedAt
    | none => now
  let remaining := s.chunks.filter (fun c => c.url ≠ p.url)
  if p.chunks = [] then
    { s with chunks := remaining }
  else
    let newChunks := (List.range p.chunks.length).map (fun i => ⟨mkId p.url i, p.url, i⟩)
    let prec : PageRec := ⟨p.url, p.title, p.author, p.published, p.updated,
      p.language, p.summary, p.chunks.length, first, now⟩
    { chunks := upsertChunkBatch remaining newChunks,
      pages := upsertPageRec s.pages (pageId p.url) prec }

/-- Embedding of `Indexer.delete_page`: delete all chunks for the URL and
the page record. -/
def deletePage (pageId : String → String) (s : Store) (url : String) : Store :=
  { chunks := s.chunks.filter (fun c => c.url ≠ url),
    pages := s.pages.filter (fun e => e.1 ≠ pageId url) }

inductive IndexOp where
  | index (p : ParsedPageM) (now : Int)
  | delete (url : String)
deriving DecidableEq

def applyOp (mkId : String → Nat → String) (pageId : String → String)
    (s : Store) : IndexOp → Store
  | .index p now => indexPage mkId pageId now s p
  | .delete url => deletePage pageId s url

/-- Run a sequence of `index_page` / `delete_page` operations from the
empty store. -/
def runOps (mkId : String → Nat → String) (pageId : String → String)
    (ops : List IndexOp) : Store :=
  ops.foldl (applyOp mkId pageId) ⟨[], []⟩

/-- Ids of the chunks stored for a URL (the chunks whose `url` metadata
matches, as `delete(where={url: ...})` and `get(where={url: ...})` see
them). -/
def chunkIdsFor (s : Store) (url : String) : List String :=
  (s.chunks.filter (fun c => c.url = url)).map (·.id)

/-- The (amended) store invariant: page keys are well-formed, chunk ids
are the hash of their own url and index, and for every URL the stored
chunk-id set is either exactly `{mkId u i | i < chunk_count}` for the
recorded `chunk_count`, or empty; URLs without a page record have no
chunks. -/
def storeInv (mkId : String → Nat → String) (pageId : String → String) (s : Store) : Prop :=
  (∀ e ∈ s.pages, e.1 = pageId e.2.url) ∧
  (∀ c ∈ s.chunks, c.id = mkId c.url c.chunkIndex) ∧
  (∀ u, match lookupPage s.pages (pageId u) with
    | some r =>
        chunkIdsFor s u = (List.range r.chunkCount).map (mkId u) ∨ chunkIdsFor s u = []
    | none => chunkIdsFor s u = [])

/-- Concrete, visibly injective stand-ins for the truncated hashes, used
only in C1's concrete counterexample and witness. -/
def mkIdT (u : String) (i : Nat) : String := u ++ "::chunk::" ++ toString i

def pageIdT (u : String) : String := "page::" ++ u

/-- C1 counterexample: ingest a URL with one chunk, then re-ingest it with
zero chunks.  The page record survives with its stale `chunk_count = 1`,
while the chunk set is empty — so the stored chunk-id set does not equal
`{id(U, i) | i < chunk_count(U)}` after a zero-chunk re-ingest. -/
theorem c1_zero_chunk_reingest_counterexample :
    chunkIdsFor (runOps mkIdT pageIdT
        [.index ⟨"http://s/a", "a", "", "", "", "en", "", ["body text"]⟩ 1,
         .index ⟨"http://s/a", "a", "", "", "", "en", "", []⟩ 2]) "http://s/a" = [] ∧
    lookupPage (runOps mkIdT pageIdT
        [.index ⟨"http://s/a", "a", "", "", "", "en", "", ["body text"]⟩ 1,
         .index ⟨"http://s/a", "a", "", "", "", "en", "", []⟩ 2]).pages
      (pageIdT "http://s/a") =
      some ⟨"http://s/a", "a", "", "", "", "en", "", 1, 1, 1⟩ ∧
    ((List.range 1).map (mkIdT "http://s/a") ≠ []) := by
  refine ⟨by decide, by decide, by decide⟩

theorem lookupPage_upsert_self (ps : List (String × PageRec)) (k : String) (r : PageRec) :
    lookupPage (upsertPageRec ps k r) k = some r := by
  induction ps with
  | nil => simp [upsertPageRec, lookupPage, List.find?]
  | cons e t ih =>
    by_cases h : e.1 = k
    · simp [upsertPageRec, h, lookupPage, List.find?]
    · simp only [upsertPageRec, if_neg h]
      simpa [lookupPage, List.find?_cons, h] using ih

theorem lookupPage_upsert_ne (ps : List (String × PageRec)) (k k' : String) (r : PageRec)
    (h : k' ≠ k) : lookupPage (upsertPageRec ps k r) k' = lookupPage ps k' := by
  have h2 : k ≠ k' := Ne.symm h
  induction ps with
  | nil => simp [upsertPageRec, lookupPage, List.find?, h2]
  | cons e t ih =>
    by_cases he : e.1 = k
    · have he' : e.1 ≠ k' := by rw [he]; exact h2
      simp only [upsertPageRec, if_pos he]
      simpa [lookupPage, List.find?_cons, h2, he'] using ih
    · simp only [upsertPageRec, if_neg he]
      by_cases he2 : e.1 = k'
      · simp [lookupPage, List.find?_cons, he2]
      · simpa [lookupPage, List.find?_cons, he2] using ih

theorem lookupPage_filter_self (ps : List (String × PageRec)) (k : String) :
    lookupPage (ps.filter (fun e => e.1 ≠ k)) k = none := by
  rw [lookupPage]
  have : List.find? (fun e => e.1 = k) (ps.filter (fun e => e.1 ≠ k)) = none := by
    apply List.find?_eq_none.mpr
    intro e he
    have := (List.mem_filter.mp he).2
    simp at this ⊢
    exact this
  rw [this]; rfl

theorem lookupPage_filter_ne (ps : List (String × PageRec)) (k k' : String) (h : k' ≠ k) :
    lookupPage (ps.filter (fun e => e.1 ≠ k)) k' = lookupPage ps k' := by
  induction ps with
  | nil => rfl
  | cons e t ih =>
    by_cases he : e.1 = k
    · have he' : e.1 ≠ k' := by rw [he]; exact fun hx => h hx.symm
      simp only [List.filter_cons, he]
      simpa [lookupPage, List.find?_cons, he'] using ih
    · simp only [List.filter_cons, he]
      by_cases he2 : e.1 = k'
      · simp [lookupPage, List.find?_cons, he2, he, h]
      · simpa [lookupPage, List.find?_cons, he2, he] using ih

theorem upsertPageRec_mem (ps : List (String × PageRec)) (k : String) (r : PageRec) :
    ∀ e ∈ upsertPageRec ps k r, e = (k, r) ∨ e ∈ ps := by
  induction ps with
  | nil => intro e he; simp [upsertPageRec] at he; exact Or.inl he
  | cons a t ih =>
    intro e he
    by_cases ha : a.1 = k
    · simp only [upsertPageRec, if_pos ha] at he
      rcases List.mem_cons.mp he with h | h
      · exact Or.inl h
      · rcases ih e h with h' | h'
        · exact Or.inl h'
        · exact Or.inr (List.mem_cons_of_mem a h')
    · simp only [upsertPageRec, if_neg ha] at he
      rcases List.mem_cons.mp he with h | h
      · exact Or.inr (h ▸ List.mem_cons_self a t)
      · rcases ih e h with h' | h'
        · exact Or.inl h'
        · exact Or.inr (List.mem_cons_of_mem a h')

theorem filter_url_of_filter_ne (cs : List ChunkEntry) (u : String) :
    (cs.filter (fun c => c.url ≠ u)).filter (fun c => c.url = u) = [] := by
  rw [List.filter_filter]
  apply List.filter_eq_nil_iff.mpr
  intro c hc
  simp

theorem filter_url_comm (cs : List ChunkEntry) (u v : String) (h : u ≠ v) :
    (cs.filter (fun c => c.url ≠ v)).filter (fun c => c.url = u) =
      cs.filter (fun c => c.url = u) := by
  rw [List.filter_filter]
  apply List.filter_congr
  intro c _
  by_cases hc : c.url = u
  · simp [hc, h]
  · simp [hc]

theorem indexPage_empty_eq (mkId : String → Nat → String) (pageId : String → String)
    (now : Int) (s : Store) (p : ParsedPageM) (h : p.chunks = []) :
    indexPage mkId pageId now s p =
      { s with chunks := s.chunks.filter (fun c => c.url ≠ p.url) } := by
  simp [indexPage, h]

theorem indexPage_nonempty_eq (mkId : String → Nat → String) (pageId : String → String)
    (now : Int) (s : Store) (p : ParsedPageM) (h : p.chunks ≠ []) :
    indexPage mkId pageId now s p =
      { chunks := upsertChunkBatch (s.chunks.filter (fun c => c.url ≠ p.url))
          ((List.range p.chunks.length).map (fun i => ⟨mkId p.url i, p.url, i⟩)),
        pages := upsertPageRec s.pages (pageId p.url)
          ⟨p.url, p.title, p.author, p.published, p.updated, p.language, p.summary,
            p.chunks.length,
            (match lookupPage s.pages (pageId p.url) with
             | some m => m.firstIndexedAt
             | none => now), now⟩ } := by
  simp [indexPage, h]

theorem storeInv_deletePage (mkId : String → Nat → String) (pageId : String → String)
    (hpg : ∀ u v, pageId u = pageId v → u = v)
    (s : Store) (url : String) (hinv : storeInv mkId pageId s) :
    storeInv mkId pageId (deletePage pageId s url) := by
  rcases hinv with ⟨hkeys, hwf, hids⟩
  refine ⟨?_, ?_, ?_⟩
  · intro e he
    exact hkeys e (List.mem_filter.mp he).1
  · intro c hc
    exact hwf c (List.mem_filter.mp hc).1
  · intro u
    by_cases hu : u = url
    · subst hu
      rw [show lookupPage (deletePage pageId s u).pages (pageId u) = none from
        lookupPage_filter_self s.pages (pageId u)]
      rw [chunkIdsFor]
      rw [show (deletePage pageId s u).chunks = s.chunks.filter (fun c => c.url ≠ u) from rfl]
      rw [filter_url_of_filter_ne]
      rfl
    · have hkey : pageId u ≠ pageId url := fun hx => hu (hpg u url hx)
      have hl : lookupPage (deletePage pageId s url).pages (pageId u) =
          lookupPage s.pages (pageId u) :=
        lookupPage_filter_ne s.pages (pageId url) (pageId u) hkey
      have hc : chunkIdsFor (deletePage pageId s url) u = chunkIdsFor s u := by
        rw [chunkIdsFor, chunkIdsFor]
        rw [show (deletePage pageId s url).chunks = s.chunks.filter (fun c => c.url ≠ url) from rfl]
        rw [filter_url_comm s.chunks u url hu]
      rw [hl, hc]
      exact hids u

theorem indexPage_nonempty_chunks (mkId : String → Nat → String) (pageId : String → String)
    (now : Int) (s : Store) (p : ParsedPageM) (h : p.chunks ≠ []) :
    (indexPage mkId pageId now s p).chunks =
      upsertChunkBatch (s.chunks.filter (fun c => c.url ≠ p.url))
        ((List.range p.chunks.length).map (fun i => ⟨mkId p.url i, p.url, i⟩)) := by
  rw [indexPage_nonempty_eq mkId pageId now s p h]

theorem indexPage_nonempty_pages (mkId : String → Nat → String) (pageId : String → String)
    (now : Int) (s : Store) (p : ParsedPageM) (h : p.chunks ≠ []) :
    (indexPage mkId pageId now s p).pages =
      upsertPageRec s.pages (pageId p.url)
        ⟨p.url, p.title, p.author, p.published, p.updated, p.language, p.summary,
          p.chunks.length,
          (match lookupPage s.pages (pageId p.url) with
           | some m => m.firstIndexedAt
           | none => now), now⟩ := by
  rw [indexPage_nonempty_eq mkId pageId now s p h]

theorem chunkIdsFor_indexPage_self (mkId : String → Nat → String)
    (pageId : String → String) (now : Int) (s : Store) (p : ParsedPageM)
    (hne : p.chunks ≠ []) :
    chunkIdsFor (indexPage mkId pageId now s p) p.url =
      (List.range p.chunks.length).map (mkId p.url) := by
  rw [chunkIdsFor, indexPage_nonempty_chunks mkId pageId now s p hne,
    upsertChunkBatch, List.filter_append]
  have h1 : ((s.chunks.filter (fun c => c.url ≠ p.url)).filter
      (fun c => !((List.range p.chunks.length).map
        (fun i => (⟨mkId p.url i, p.url, i⟩ : ChunkEntry))).any (fun n => n.id = c.id))).filter
      (fun c => c.url = p.url) = [] := by
    apply List.filter_eq_nil_iff.mpr
    intro c hc
    have := (List.mem_filter.mp (List.mem_filter.mp hc).1).2
    simp at this ⊢
    exact this
  rw [h1]
  have h2 : ((List.range p.chunks.length).map
      (fun i => (⟨mkId p.url i, p.url, i⟩ : ChunkEntry))).filter
      (fun c => c.url = p.url) =
      (List.range p.chunks.length).map (fun i => (⟨mkId p.url i, p.url, i⟩ : ChunkEntry)) := by
    apply List.filter_eq_self.mpr
    intro c hc
    rcases List.mem_map.mp hc with ⟨i, _, hi⟩
    rw [← hi]
    simp
  rw [h2, List.nil_append, List.map_map]
  rfl

theorem storeInv_indexPage (mkId : String → Nat → String) (pageId : String → String)
    (hmk : ∀ u1 i1 u2 i2, mkId u1 i1 = mkId u2 i2 → u1 = u2 ∧ i1 = i2)
    (hpg : ∀ u v, pageId u = pageId v → u = v)
    (now : Int) (s : Store) (p : ParsedPageM) (hinv : storeInv mkId pageId s) :
    storeInv mkId pageId (indexPage mkId pageId now s p) := by
  rcases hinv with ⟨hkeys, hwf, hids⟩
  by_cases hc : p.chunks = []
  · have hch : (indexPage mkId pageId now s p).chunks =
        s.chunks.filter (fun c => c.url ≠ p.url) := by
      rw [indexPage_empty_eq mkId pageId now s p hc]
    have hpp : (indexPage mkId pageId now s p).pages = s.pages := by
      rw [indexPage_empty_eq mkId pageId now s p hc]
    refine ⟨?_, ?_, ?_⟩
    · intro e he; rw [hpp] at he; exact hkeys e he
    · intro c hcm; rw [hch] at hcm; exact hwf c (List.mem_filter.mp hcm).1
    · intro u
      rw [hpp]
      by_cases hu : u = p.url
      · subst hu
        have hempty : chunkIdsFor (indexPage mkId pageId now s p) p.url = [] := by
          rw [chunkIdsFor, hch, filter_url_of_filter_ne]
          rfl
        rcases hl : lookupPage s.pages (pageId p.url) with _ | r
        · simp only [hl]; exact hempty
        · simp only [hl]; exact Or.inr hempty
      · have hsame : chunkIdsFor (indexPage mkId pageId now s p) u = chunkIdsFor s u := by
          rw [chunkIdsFor, chunkIdsFor, hch, filter_url_comm s.chunks u p.url hu]
        rw [hsame]
        exact hids u
  · have hch := indexPage_nonempty_chunks mkId pageId now s p hc
    have hpp := indexPage_nonempty_pages mkId pageId now s p hc
    refine ⟨?_, ?_, ?_⟩
    · intro e he
      rw [hpp] at he
      rcases upsertPageRec_mem s.pages (pageId p.url) _ e he with h | h
      · rw [h]
      · exact hkeys e h
    · intro c hcm
      rw [hch] at hcm
      rcases List.mem_append.mp hcm with h | h
      · exact hwf c (List.mem_filter.mp (List.mem_filter.mp h).1).1
      · rcases List.mem_map.mp h with ⟨i, _, hi⟩
        rw [← hi]
    · intro u
      by_cases hu : u = p.url
      · subst hu
        have hl : lookupPage (indexPage mkId pageId now s p).pages (pageId p.url) =
            some ⟨p.url, p.title, p.author, p.published, p.updated, p.language, p.summary,
              p.chunks.length,
              (match lookupPage s.pages (pageId p.url) with
               | some m => m.firstIndexedAt
               | none => now), now⟩ := by
          rw [hpp]
          exact lookupPage_upsert_self s.pages (pageId p.url) _
        rw [hl]
        left
        rw [chunkIdsFor_indexPage_self mkId pageId now s p hc]
      · have hkey : pageId u ≠ pageId p.url := fun hx => hu (hpg u p.url hx)
        have hl : lookupPage (indexPage mkId pageId now s p).pages (pageId u) =
            lookupPage s.pages (pageId u) := by
          rw [hpp]
          exact lookupPage_upsert_ne s.pages (pageId p.url) (pageId u) _ hkey
        have hsame : chunkIdsFor (indexPage mkId pageId now s p) u = chunkIdsFor s u := by
          rw [chunkIdsFor, chunkIdsFor, hch, upsertChunkBatch, List.filter_append]
          have hn : ((List.range p.chunks.length).map
              (fun i => (⟨mkId p.url i, p.url, i⟩ : ChunkEntry))).filter
              (fun c => c.url = u) = [] := by
            apply List.filter_eq_nil_iff.mpr
            intro c hcm
            rcases List.mem_map.mp hcm with ⟨i, _, hi⟩
            rw [← hi]
            simpa using fun hx => hu hx.symm
          rw [hn, List.append_nil]
          have hstep1 : ((s.chunks.filter (fun c => c.url ≠ p.url)).filter
              (fun c => !((List.range p.chunks.length).map
                (fun i => (⟨mkId p.url i, p.url, i⟩ : ChunkEntry))).any
                  (fun n => n.id = c.id))).filter (fun c => c.url = u) =
              (s.chunks.filter (fun c => c.url ≠ p.url)).filter (fun c => c.url = u) := by
            rw [List.filter_filter]
            apply List.filter_congr
            intro c hcm
            have hcs : c ∈ s.chunks := (List.mem_filter.mp hcm).1
            by_cases hcu : c.url = u
            · have hmatch : ((List.range p.chunks.length).map
                  (fun i => (⟨mkId p.url i, p.url, i⟩ : ChunkEntry))).any
                    (fun n => n.id = c.id) = false := by
                apply List.any_eq_false.mpr
                intro n hn2
                rcases List.mem_map.mp hn2 with ⟨i, _, hi⟩
                rw [← hi]
                simp only [decide_eq_true_eq]
                intro hid
                have hcwf := hwf c hcs
                rw [hcwf, hcu] at hid
                exact hu ((hmk p.url i u c.chunkIndex hid).1).symm
              simp [hcu, hmatch]
            · simp [hcu]
          rw [hstep1, filter_url_comm s.chunks u p.url hu]
        rw [hl, hsame]
        exact hids u

theorem storeInv_foldl (mkId : String → Nat → String) (pageId : String → String)
    (hmk : ∀ u1 i1 u2 i2, mkId u1 i1 = mkId u2 i2 → u1 = u2 ∧ i1 = i2)
    (hpg : ∀ u v, pageId u = pageId v → u = v)
    (ops : List IndexOp) (s : Store) (hs : storeInv mkId pageId s) :
    storeInv mkId pageId (ops.foldl (applyOp mkId pageId) s) := by
  induction ops generalizing s with
  | nil => exact hs
  | cons op rest ih =>
    rw [List.foldl_cons]
    apply ih
    cases op with
    | index p now => exact storeInv_indexPage mkId pageId hmk hpg now s p hs
    | delete url => exact storeInv_deletePage mkId pageId hpg s url hs

/-- C1 (amended): provided the truncated-hash ids are collision-free
(injectivity of `mkId` and `pageId`), after any sequence of `index_page`
and `delete_page` operations from the empty store, for every URL `U` with
a page record the set of stored chunk ids is either exactly
`{mkId U i | 0 ≤ i < chunk_count(U)}` for the recorded `chunk_count`, or
empty (the empty case arises from a re-ingest whose parsed page had zero
chunks, which deletes the chunks but leaves the previous page record in
place); a URL without a page record has no chunks.  In particular no
partial overlap of old and new chunk sets ever remains.  Moreover an
operation sequence ending in an `index_page` for `U` with `n > 0` chunks
leaves exactly the ids `{mkId U i | i < n}` for `U`. -/
theorem c1_chunk_identity_amended (mkId : String → Nat → String)
    (pageId : String → String)
    (hmk : ∀ u1 i1 u2 i2, mkId u1 i1 = mkId u2 i2 → u1 = u2 ∧ i1 = i2)
    (hpg : ∀ u v, pageId u = pageId v → u = v) (ops : List IndexOp) :
    storeInv mkId pageId (runOps mkId pageId ops) ∧
    (∀ (p : ParsedPageM) (now : Int), p.chunks ≠ [] →
      chunkIdsFor (runOps mkId pageId (ops ++ [.index p now])) p.url =
        (List.range p.chunks.length).map (mkId p.url)) := by
  constructor
  · apply storeInv_foldl mkId pageId hmk hpg
    refine ⟨by simp, by simp, ?_⟩
    intro u
    simp [lookupPage, chunkIdsFor, List.find?]
  · intro p now hne
    rw [runOps, List.foldl_append]
    exact chunkIdsFor_indexPage_self mkId pageId now _ p hne

/-- Concrete injective id functions used to instantiate C1's witness:
`mkIdW u i` tags `i` in unary before a reserved separator character. -/
def mkIdW (u : String) (i : Nat) : String :=
  (⟨List.replicate i 'c'⟩ : String) ++ ":" ++ u

theorem replicate_colon_inj : ∀ (i j : Nat) (x y : List Char),
    List.replicate i 'c' ++ ':' :: x = List.replicate j 'c' ++ ':' :: y →
    i = j ∧ x = y := by
  intro i
  induction i with
  | zero =>
    intro j x y h
    cases j with
    | zero => simpa using h
    | succ j => rw [List.replicate_succ] at h; simp at h
  | succ i ih =>
    intro j x y h
    cases j with
    | zero => rw [List.replicate_succ] at h; simp at h
    | succ j =>
      rw [List.replicate_succ, List.replicate_succ] at h
      simp only [List.cons_append, List.cons.injEq, true_and] at h
      rcases ih j x y h with ⟨h1, h2⟩
      exact ⟨by omega, h2⟩

theorem mkIdW_inj : ∀ (u1 : String) (i1 : Nat) (u2 : String) (i2 : Nat),
    mkIdW u1 i1 = mkIdW u2 i2 → u1 = u2 ∧ i1 = i2 := by
  intro u1 i1 u2 i2 h
  have hd : (mkIdW u1 i1).data = (mkIdW u2 i2).data := by rw [h]
  rw [mkIdW, mkIdW, String.data_append, String.data_append,
    String.data_append, String.data_append] at hd
  have hd2 : List.replicate i1 'c' ++ ':' :: u1.data =
      List.replicate i2 'c' ++ ':' :: u2.data := by
    simpa [List.append_assoc] using hd
  rcases replicate_colon_inj i1 i2 u1.data u2.data hd2 with ⟨h1, h2⟩
  refine ⟨?_, h1⟩
  cases u1; cases u2; exact congrArg String.mk h2

/-- C1 witness: the amended theorem applied with the concrete injective id
functions (identity page ids) to a concrete one-chunk ingest. -/
theorem c1_chunk_identity_amended_witness :
    storeInv mkIdW (fun u => u)
      (runOps mkIdW (fun u => u) [.index ⟨"http://s/a", "a", "", "", "", "en", "", ["t"]⟩ 1]) ∧
    chunkIdsFor (runOps mkIdW (fun u => u)
      ([] ++ [.index ⟨"http://s/a", "a", "", "", "", "en", "", ["t"]⟩ 1])) "http://s/a" =
      (List.range 1).map (mkIdW "http://s/a") := by
  have h := c1_chunk_identity_amended mkIdW (fun u => u) mkIdW_inj (fun _ _ h => h)
  exact ⟨(h [.index ⟨"http://s/a", "a", "", "", "", "en", "", ["t"]⟩ 1]).1,
    (h []).2 ⟨"http://s/a", "a", "", "", "", "en", "", ["t"]⟩ 1 (by decide)⟩

/-! ## Python `urllib.parse.urlparse` (CPython 3.11), for C9 and C4

`urlsplit` strips surrounding C0-control/space characters, removes every
tab/CR/LF, then splits off in order: an RFC 3986 scheme (first `:` with a
leading-alpha, scheme-charset prefix, lowercased), a netloc after a `//`
prefix (up to the next `/`, `?` or `#`), the fragment at the first `#`,
and the query at the first `?`.  `urlparse` additionally splits `;params`
off the last path segment when the scheme uses params.  An unbalanced
IPv6 bracket in the netloc raises `ValueError` (modelled as `none` in
`pyUrlsplitE`); the non-ASCII `_checknetloc` raise is not modelled. -/

structure UrlSplitResult where
  scheme : List Char
  netloc : List Char
  path : List Char
  query : List Char
  fragment : List Char
deriving DecidableEq

def stripC0 (l : List Char) : List Char :=
  ((l.dropWhile (fun c => c.toNat ≤ 32)).reverse.dropWhile (fun c => c.toNat ≤ 32)).reverse

def removeUnsafe (l : List Char) : List Char :=
  l.filter (fun c => !(c = '\t' || c = '\r' || c = '\n'))

def isSchemeChar (c : Char) : Bool :=
  c.isAlpha || c.isDigit || c = '+' || c = '-' || c = '.'

/-- Scheme split: `(some scheme, rest)` when the part before the first `:`
is a valid scheme, else `(none, url)`. -/
def splitScheme (l : List Char) : Option (List Char) × List Char :=
  match l.span (fun c => c ≠ ':') with
  | (pre, ':' :: after) =>
    match pre with
    | [] => (none, l)
    | c0 :: _ =>
      if c0.isAlpha && pre.all isSchemeChar then (some (pre.map Char.toLower), after)
      else (none, l)
  | _ => (none, l)

/-- Netloc split: on a `//` prefix, the netloc runs to the next `/`, `?`
or `#` (which stays in the remainder). -/
def splitNetloc (l : List Char) : List Char × List Char :=
  match l with
  | '/' :: '/' :: rest => rest.span (fun c => c ≠ '/' && c ≠ '?' && c ≠ '#')
  | _ => ([], l)

/-- Split at the first occurrence of `ch`: `(before, some after)` when
present, `(l, none)` otherwise. -/
def splitAtChar (ch : Char) (l : List Char) : List Char × Option (List Char) :=
  match l.span (fun c => c ≠ ch) with
  | (pre, _ :: after) => (pre, some after)
  | (pre, []) => (pre, none)

/-- Total `urlsplit` (without the IPv6-bracket `ValueError`).  The
pipeline is clean → scheme split → netloc split → fragment split →
query split, written with explicit projections. -/
def pyUrlsplitTotal (s : String) : UrlSplitResult :=
  ⟨(splitScheme (removeUnsafe (stripC0 s.data))).1.getD [],
   (splitNetloc (splitScheme (removeUnsafe (stripC0 s.data))).2).1,
   (splitAtChar '?' (splitAtChar '#'
     (splitNetloc (splitScheme (removeUnsafe (stripC0 s.data))).2).2).1).1,
   ((splitAtChar '?' (splitAtChar '#'
     (splitNetloc (splitScheme (removeUnsafe (stripC0 s.data))).2).2).1).2).getD [],
   ((splitAtChar '#'
     (splitNetloc (splitScheme (removeUnsafe (stripC0 s.data))).2).2).2).getD []⟩

/-- `urlsplit` with the unbalanced-IPv6-bracket raise modelled as `none`. -/
def pyUrlsplitE (s : String) : Option UrlSplitResult :=
  let r := pyUrlsplitTotal s
  if (r.netloc.contains '[' && !r.netloc.contains ']') ||
     (r.netloc.contains ']' && !r.netloc.contains '[') then none
  else some r

/-- Schemes for which `urlparse` splits `;params` (CPython `uses_params`,
with the irrelevant entries kept verbatim). -/
def usesParams : List String :=
  ["", "ftp", "hdl", "prospero", "http", "imap", "https", "shttp", "rtsp",
   "rtspu", "sip", "sips", "mms", "sftp", "tel"]

/-- CPython `_splitparams`: drop `;...` from the last path segment (the
segment after the last `/`; the whole path when it has no `/`). -/
def pySplitParams (path : List Char) : List Char :=
  if path.contains '/' then
    match (path.reverse.span (fun c => c ≠ '/')).1.reverse.span (fun c => c ≠ ';') with
    | (_, []) => path
    | (segPre, _ :: _) => (path.reverse.span (fun c => c ≠ '/')).2.reverse ++ segPre
  else
    match path.span (fun c => c ≠ ';') with
    | (_, []) => path
    | (p1, _ :: _) => p1

/-- The `.path` attribute of `urlparse(s)` (`none` when `urlsplit`
raises). -/
def pyUrlparsePath (s : String) : Option (List Char) :=
  match pyUrlsplitE s with
  | none => none
  | some r =>
    some (if usesParams.contains ⟨r.scheme⟩ then pySplitParams r.path else r.path)

/-! ## C9 — `sanitize_url_param`
(src/adapters/fastapi/openfeeder_fastapi/router.py 72-82, 185-195) -/

/-- Python `path.rstrip('/')`. -/
def rstripSlash (l : List Char) : List Char :=
  (l.reverse.dropWhile (fun c => c = '/')).reverse

/-- Substring test for `".."`. -/
def hasDotDot : List Char → Bool
  | [] => false
  | c :: rest => (c = '.' && rest.head? = some '.') || hasDotDot rest

inductive SanitizeResult where
  | ok (path : String)
  | invalid
  | error
deriving DecidableEq

/-- Core of `sanitize_url_param` on the result of `urlparse(raw).path`:
`path.rstrip('/') or '/'`, then the `..` check. -/
def sanitizeCore : Option (List Char) → SanitizeResult
  | none => .error
  | some path =>
    if hasDotDot (if rstripSlash path = [] then ['/'] else rstripSlash path) then .invalid
    else .ok ⟨if rstripSlash path = [] then ['/'] else rstripSlash path⟩

/-- Embedding of `sanitize_url_param`: empty input and paths containing
`..` yield `None` (`invalid`); a `ValueError` escaping `urlparse` is
`error`. -/
def sanitizeUrlParam (raw : String) : SanitizeResult :=
  if raw = "" then .invalid
  else sanitizeCore (pyUrlparsePath raw)

inductive RouterResp where
  | success
  | err (status : Nat) (code : String)
  | http500
deriving DecidableEq

/-- Embedding of the single-page branch of the adapter `content` endpoint:
sanitize, then call the user-supplied `get_item` (whose outcome is
abstracted: an exception, not found, or an item). -/
def routerContentUrlMode (getItem : String → Except String (Option Nat))
    (raw : String) : RouterResp :=
  match sanitizeUrlParam raw with
  | .error => .http500
  | .invalid => .err 400 "INVALID_URL"
  | .ok p =>
    match getItem p with
    | .error _ => .err 500 "INTERNAL_ERROR"
    | .ok none => .err 404 "NOT_FOUND"
    | .ok (some _) => .success

theorem span_all_true (p : Char → Bool) (l : List Char) (h : ∀ c ∈ l, p c) :
    l.span p = (l, []) := by
  rw [List.span_eq_take_drop, List.takeWhile_eq_self_iff.mpr h,
    List.dropWhile_eq_nil_iff.mpr h]

theorem dropWhile_all_false (p : Char → Bool) (l : List Char)
    (h : ∀ c ∈ l, p c = false) : l.dropWhile p = l := by
  cases l with
  | nil => rfl
  | cons c t => rw [List.dropWhile_cons, h c (List.mem_cons_self c t)]; simp

theorem stripC0_id (l : List Char) (h : ∀ c ∈ l, 32 < c.toNat) : stripC0 l = l := by
  rw [stripC0]
  rw [dropWhile_all_false _ l (fun c hc => by simpa using Nat.not_le.mpr (h c hc))]
  rw [dropWhile_all_false _ l.reverse
    (fun c hc => by simpa using Nat.not_le.mpr (h c (List.mem_reverse.mp hc)))]
  exact List.reverse_reverse l

theorem removeUnsafe_id (l : List Char) (h : ∀ c ∈ l, 32 < c.toNat) :
    removeUnsafe l = l := by
  apply List.filter_eq_self.mpr
  intro c hc
  have := h c hc
  simp only [Bool.not_eq_true']
  have h1 : c ≠ '\t' := fun he => by rw [he] at this; simp at this
  have h2 : c ≠ '\r' := fun he => by rw [he] at this; simp at this
  have h3 : c ≠ '\n' := fun he => by rw [he] at this; simp at this
  simp [h1, h2, h3]

theorem splitScheme_nocolon (l : List Char) (h : ':' ∉ l) :
    splitScheme l = (none, l) := by
  have hall : ∀ c ∈ l, (fun c => decide (c ≠ ':')) c = true := by
    intro c hc
    simp only [decide_eq_true_eq]
    intro he
    exact h (he ▸ hc)
  rw [splitScheme, span_all_true _ l hall]

theorem splitNetloc_not_double_slash (l : List Char) (h : l.take 2 ≠ ['/', '/']) :
    splitNetloc l = ([], l) := by
  rw [splitNetloc.eq_def]
  split
  · exfalso; exact h rfl
  · rfl

theorem splitAtChar_none (ch : Char) (l : List Char) (h : ch ∉ l) :
    splitAtChar ch l = (l, none) := by
  have hall : ∀ c ∈ l, (fun c => decide (c ≠ ch)) c = true := by
    intro c hc
    simp only [decide_eq_true_eq]
    intro he
    exact h (he ▸ hc)
  rw [splitAtChar, span_all_true _ l hall]

theorem pySplitParams_nosemi (l : List Char) (h : ';' ∉ l) : pySplitParams l = l := by
  rw [pySplitParams]
  by_cases hs : l.contains '/'
  · rw [if_pos hs]
    have hseg : ∀ c ∈ (l.reverse.span (fun c => c ≠ '/')).1.reverse,
        (fun c => decide (c ≠ ';')) c = true := by
      intro c hc
      rw [List.mem_reverse] at hc
      rw [List.span_eq_take_drop] at hc
      have hc2 : c ∈ l.reverse := List.takeWhile_subset _ hc
      rw [List.mem_reverse] at hc2
      simp only [decide_eq_true_eq]
      intro he
      exact h (he ▸ hc2)
    rw [span_all_true _ _ hseg]
  · rw [if_neg hs]
    have hall : ∀ c ∈ l, (fun c => decide (c ≠ ';')) c = true := by
      intro c hc
      simp only [decide_eq_true_eq]
      intro he
      exact h (he ▸ hc)
    rw [span_all_true _ l hall]

theorem dropWhile_dropWhile (p : Char → Bool) (l : List Char) :
    List.dropWhile p (List.dropWhile p l) = List.dropWhile p l := by
  induction l with
  | nil => rfl
  | cons c t ih =>
    rw [List.dropWhile_cons]
    by_cases hc : p c
    · rw [if_pos hc]; exact ih
    · rw [if_neg hc, List.dropWhile_cons, if_neg hc]

theorem rstripSlash_idem (l : List Char) : rstripSlash (rstripSlash l) = rstripSlash l := by
  rw [rstripSlash, rstripSlash, List.reverse_reverse, dropWhile_dropWhile]

theorem rstripSlash_decomp (l : List Char) :
    l = rstripSlash l ++ (l.reverse.takeWhile (fun c => c = '/')).reverse ∧
    (∀ c ∈ (l.reverse.takeWhile (fun c => c = '/')).reverse, c = '/') := by
  constructor
  · conv_lhs => rw [← List.reverse_reverse l,
      ← List.takeWhile_append_dropWhile (p := fun c => c = '/') (l := l.reverse)]
    rw [List.reverse_append]
    rfl
  · intro c hc
    rw [List.mem_reverse] at hc
    have := List.mem_takeWhile_imp hc
    simpa using this

theorem hasDotDot_all_slash (s : List Char) (h : ∀ c ∈ s, c = '/') :
    hasDotDot s = false := by
  induction s with
  | nil => rfl
  | cons c t ih =>
    have hc : c = '/' := h c (List.mem_cons_self c t)
    rw [hasDotDot, ih (fun x hx => h x (List.mem_cons_of_mem c hx))]
    subst hc
    simp

theorem hasDotDot_append_all_slash (a s : List Char) (hs : ∀ c ∈ s, c = '/')
    (h : hasDotDot (a ++ s) = true) : hasDotDot a = true := by
  induction a with
  | nil => rw [List.nil_append] at h; rw [hasDotDot_all_slash s hs] at h; exact absurd h (by simp)
  | cons c t ih =>
    rw [List.cons_append, hasDotDot, Bool.or_eq_true] at h
    rw [hasDotDot, Bool.or_eq_true]
    rcases h with h | h
    · cases t with
      | nil =>
        rw [List.nil_append] at h
        rw [Bool.and_eq_true] at h
        exfalso
        cases s with
        | nil => simp at h
        | cons x r =>
          have hx : x = '/' := hs x (List.mem_cons_self x r)
          rw [List.head?_cons, hx] at h
          simp at h
      | cons x t' =>
        left
        rw [List.cons_append, List.head?_cons] at h
        rw [List.head?_cons]
        exact h
    · right
      exact ih h

theorem rstripSlash_nil_all_slash (l : List Char) (h : rstripSlash l = []) :
    ∀ c ∈ l, c = '/' := by
  rw [rstripSlash] at h
  have h2 : l.reverse.dropWhile (fun c => c = '/') = [] := by
    have := congrArg List.reverse h
    rwa [List.reverse_reverse] at this
  intro c hc
  have := List.dropWhile_eq_nil_iff.mp h2 c (List.mem_reverse.mpr hc)
  simpa using this

theorem hasDotDot_rstripSlash (l : List Char) (h : hasDotDot l = true) :
    hasDotDot (rstripSlash l) = true := by
  rcases rstripSlash_decomp l with ⟨hdec, hall⟩
  rw [hdec] at h
  exact hasDotDot_append_all_slash _ _ hall h

/-- C9 counterexample: `sanitize_url_param` is not idempotent on every
valid path — `urlparse` strips a scheme-shaped prefix from a re-parsed
path: sanitising `"a:b:c"` yields `"b:c"` (valid, non-null), but
sanitising `"b:c"` yields `"c"`. -/
theorem c9_idempotence_counterexample :
    sanitizeUrlParam "a:b:c" = .ok "b:c" ∧
    sanitizeUrlParam "b:c" = .ok "c" ∧
    sanitizeUrlParam "b:c" ≠ .ok "b:c" := by
  refine ⟨by decide, by decide, by decide⟩

theorem pyUrlparsePath_plain (p2 : List Char)
    (hws : ∀ c ∈ p2, 32 < c.toNat)
    (hcol : ':' ∉ p2) (hsemi : ';' ∉ p2) (hq : '?' ∉ p2) (hf : '#' ∉ p2)
    (hsl : p2.take 2 ≠ ['/', '/']) :
    pyUrlparsePath (⟨p2⟩ : String) = some p2 := by
  have h0 : removeUnsafe (stripC0 (⟨p2⟩ : String).data) = p2 := by
    rw [show (⟨p2⟩ : String).data = p2 from rfl, stripC0_id p2 hws, removeUnsafe_id p2 hws]
  have h1 : splitScheme (removeUnsafe (stripC0 (⟨p2⟩ : String).data)) = (none, p2) := by
    rw [h0]; exact splitScheme_nocolon p2 hcol
  have hsplit : pyUrlsplitTotal (⟨p2⟩ : String) = ⟨[], [], p2, [], []⟩ := by
    rw [pyUrlsplitTotal, h1]
    simp only [splitNetloc_not_double_slash p2 hsl, splitAtChar_none '#' p2 hf,
      splitAtChar_none '?' p2 hq, Option.getD_none]
  have hE : pyUrlsplitE (⟨p2⟩ : String) = some ⟨[], [], p2, [], []⟩ := by
    rw [pyUrlsplitE, hsplit]
    simp
  rw [pyUrlparsePath, hE]
  have hmem : usesParams.contains (⟨([] : List Char)⟩ : String) = true := by decide
  simp only [hmem, if_pos]
  rw [pySplitParams_nosemi p2 hsemi]

/-- C9 (amended): `sanitize_url_param` is idempotent on every valid path
whose characters are printable and contain no `:`, `;`, `?` or `#` and
which does not begin with `//` (re-parsing such a path through `urlparse`
is the identity; outside these conditions re-parsing can strip a
scheme-shaped prefix, a `;params` suffix or a `//netloc` prefix); and
for every url parameter whose extracted path contains `..` the adapter
content endpoint answers 400 `INVALID_URL`. -/
theorem c9_sanitize_amended :
    (∀ (raw p : String), sanitizeUrlParam raw = .ok p →
      (∀ c ∈ p.data, 32 < c.toNat ∧ c ≠ ':' ∧ c ≠ ';' ∧ c ≠ '?' ∧ c ≠ '#') →
      p.data.take 2 ≠ ['/', '/'] →
      sanitizeUrlParam p = .ok p) ∧
    (∀ (raw : String) (path : List Char) (getItem : String → Except String (Option Nat)),
      pyUrlparsePath raw = some path → hasDotDot path = true →
      routerContentUrlMode getItem raw = .err 400 "INVALID_URL") := by
  constructor
  · intro raw p h1 hcond hsl
    rw [sanitizeUrlParam] at h1
    by_cases hr : raw = ""
    · rw [if_pos hr] at h1; exact absurd h1 (by simp)
    · rw [if_neg hr] at h1
      rcases hpp : pyUrlparsePath raw with _ | path0
      · rw [hpp] at h1
        exact absurd h1 (by simp [sanitizeCore])
      · rw [hpp] at h1
        simp only [sanitizeCore] at h1
        rcases hdd : hasDotDot (if rstripSlash path0 = [] then ['/'] else rstripSlash path0)
          with _ | _
        · rw [if_neg (by rw [hdd]; exact Bool.false_ne_true)] at h1
          have hp : p = ⟨if rstripSlash path0 = [] then ['/'] else rstripSlash path0⟩ := by
            cases h1; rfl
          by_cases hnil : rstripSlash path0 = []
          · rw [if_pos hnil] at hp
            rw [hp, show (⟨['/']⟩ : String) = "/" from rfl]
            decide
          · rw [if_neg hnil] at hp
            have hdata : p.data = rstripSlash path0 := by rw [hp]
            have hpne : p ≠ "" := by
              intro he
              rw [he] at hdata
              exact hnil hdata.symm
            have hconds : ∀ c ∈ rstripSlash path0, 32 < c.toNat ∧ c ≠ ':' ∧ c ≠ ';' ∧
                c ≠ '?' ∧ c ≠ '#' := by
              intro c hc
              exact hcond c (by rw [hdata]; exact hc)
            have hppp : pyUrlparsePath p = some (rstripSlash path0) := by
              have hx := pyUrlparsePath_plain (rstripSlash path0)
                (fun c hc => (hconds c hc).1)
                (fun hc => ((hconds ':' hc).2.1) rfl)
                (fun hc => ((hconds ';' hc).2.2.1) rfl)
                (fun hc => ((hconds '?' hc).2.2.2.1) rfl)
                (fun hc => ((hconds '#' hc).2.2.2.2) rfl)
                (by rw [← hdata]; exact hsl)
              rwa [show (⟨rstripSlash path0⟩ : String) = p from by rw [hp]] at hx
            rw [sanitizeUrlParam, if_neg hpne, hppp]
            simp only [sanitizeCore]
            rw [rstripSlash_idem path0]
            rw [if_neg hnil]
            rw [if_neg (by
              rw [if_neg hnil] at hdd
              rw [hdd]
              exact Bool.false_ne_true)]
            rw [hp]
        · rw [if_pos hdd] at h1; exact absurd h1 (by simp)
  · intro raw path getItem hp hdd
    rw [routerContentUrlMode, sanitizeUrlParam]
    by_cases hr : raw = ""
    · exfalso
      rw [hr] at hp
      have hO : pyUrlparsePath "" = some [] := by decide
      rw [hO] at hp
      injection hp with hp2
      rw [← hp2] at hdd
      exact absurd hdd (by simp [hasDotDot])
    · rw [if_neg hr, hp]
      simp only [sanitizeCore]
      have hd2 : hasDotDot (if rstripSlash path = [] then ['/'] else rstripSlash path) = true := by
        by_cases hnil : rstripSlash path = []
        · exfalso
          have hall := rstripSlash_nil_all_slash path hnil
          rw [hasDotDot_all_slash path hall] at hdd
          exact absurd hdd (by simp)
        · rw [if_neg hnil]
          exact hasDotDot_rstripSlash path hdd
      rw [if_pos hd2]

/-- C9 witness: the amended idempotence applied at a concrete valid path
with a trailing slash, plus the traversal rejection at the spec's own
example input. -/
theorem c9_sanitize_amended_witness :
    sanitizeUrlParam "/docs/page" = .ok "/docs/page" ∧
    routerContentUrlMode (fun _ => .ok none) "/../../etc/passwd" = .err 400 "INVALID_URL" := by
  constructor
  · exact c9_sanitize_amended.1 "/docs/page/" "/docs/page" (by decide) (by decide) (by decide)
  · exact c9_sanitize_amended.2 "/../../etc/passwd" "/../../etc/passwd".data (fun _ => .ok none)
      (by decide) (by decide)

/-! ## C4 — crawler same-origin discipline (src/sidecar/crawler.py 40-161)

The crawl loop is embedded over an abstract web: `web url` is the result
of `client.get(url)` — `none` for a raised exception, otherwise an HTTP
status, a content type, and the `<a href>` targets of the page already
resolved against the page URL by `urljoin` (the resolution itself is
abstracted; the same-origin and extension filters are modelled exactly).
The sitemap expansion (`_fetch_sitemap`) is likewise abstracted as the
list of URLs it returned.  `urldefrag` is modelled as truncation at the
first `#`, which agrees with CPython on the netloc and slash structure
used here. -/

def netlocOf (u : String) : List Char := (pyUrlsplitTotal u).netloc

/-- `_is_same_origin(base, candidate)`. -/
def sameOrigin (base cand : String) : Bool := netlocOf cand = netlocOf base

def pyDefrag (u : String) : String := ⟨u.data.takeWhile (fun c => c ≠ '#')⟩

/-- `_normalise_url`: strip the fragment; strip trailing slashes when the
URL contains more than three `/`. -/
def normaliseUrl (u : String) : String :=
  if (pyDefrag u).data.getLast? = some '/' ∧ 3 < (pyDefrag u).data.count '/' then
    ⟨rstripSlash (pyDefrag u).data⟩
  else pyDefrag u

def skipExtensions : List String :=
  ["jpg", "jpeg", "png", "gif", "svg", "webp", "ico", "pdf", "zip", "tar", "gz",
   "mp3", "mp4", "mov", "avi", "woff", "woff2", "ttf", "eot", "css", "js"]

/-- `_SKIP_EXTENSIONS.search(url)`: the regex `\.(...)$` case-insensitively
anchored at the end. -/
def hasSkipExt (u : String) : Bool :=
  skipExtensions.any (fun e => ('.' :: e.data).isSuffixOf (u.data.map Char.toLower))

/-- `_extract_links` after `urljoin`: normalise each href and keep it when
it is same-origin with the *current page* and has no skipped extension. -/
def extractLinks (hrefs : List String) (baseUrl : String) : List String :=
  (hrefs.map normaliseUrl).filter (fun n => sameOrigin baseUrl n && !hasSkipExt n)

/-- Python `"text/html" in content_type` (substring test). -/
def containsSub : List Char → List Char → Bool
  | hay@(_ :: t), needle => needle.isPrefixOf hay || containsSub t needle
  | [], needle => needle.isEmpty

structure FetchResp where
  status : Nat
  contentType : String
  hrefs : List String
deriving DecidableEq

structure CrawlState where
  queue : List String
  visited : List String
  idx : Nat
  pages : List String
  fetched : List String
  errors : Nat
deriving DecidableEq

/-- The link-enqueueing inner loop: a link enters the queue only if it is
unvisited and the visited set is below `2 × max_pages`. -/
def enqueue (maxPages : Nat) : List String → List String × List String →
    List String × List String
  | [], qv => qv
  | link :: rest, (q, v) =>
    if !(v.contains link) && v.length < maxPages * 2 then
      enqueue maxPages rest (q ++ [link], v ++ [link])
    else enqueue maxPages rest (q, v)

/-- One iteration of the BFS loop body: dequeue, fetch (recording the URL
as fetched), classify the response, and enqueue discovered links. -/
def crawlStep (web : String → Option FetchResp) (maxPages : Nat)
    (st : CrawlState) : CrawlState :=
  match st.queue.get? st.idx with
  | none => st
  | some url =>
    match web url with
    | none =>
      { st with
          idx := st.idx + 1,
          fetched := st.fetched ++ [url],
          errors := st.errors + 1 }
    | some r =>
      if !containsSub r.contentType.data "text/html".data then
        { st with idx := st.idx + 1, fetched := st.fetched ++ [url] }
      else if 400 ≤ r.status then
        { st with
            idx := st.idx + 1,
            fetched := st.fetched ++ [url],
            errors := st.errors + 1 }
      else
        { st with
            idx := st.idx + 1,
            fetched := st.fetched ++ [url],
            pages := st.pages ++ [url],
            queue := (enqueue maxPages (extractLinks r.hrefs url) (st.queue, st.visited)).1,
            visited := (enqueue maxPages (extractLinks r.hrefs url) (st.queue, st.visited)).2 }

/-- The BFS loop (`while idx < len(queue) and len(result.pages) < max_pages`),
with explicit fuel. -/
def crawlLoop (web : String → Option FetchResp) (maxPages : Nat) :
    Nat → CrawlState → CrawlState
  | 0, st => st
  | fuel + 1, st =>
    if st.idx < st.queue.length ∧ st.pages.length < maxPages then
      crawlLoop web maxPages fuel (crawlStep web maxPages st)
    else st

/-- Sitemap seeding: each sitemap URL is normalised and enqueued when
unvisited — with no same-origin check. -/
def seedSitemap : List String → List String × List String →
    List String × List String
  | [], qv => qv
  | u :: rest, (q, v) =>
    if !(v.contains (normaliseUrl u)) then
      seedSitemap rest (q ++ [normaliseUrl u], v ++ [normaliseUrl u])
    else seedSitemap rest (q, v)

/-- Initial state: sitemap seeds, then the normalised root inserted at the
front when unvisited. -/
def seedState (siteUrl : String) (sitemapUrls : List String) : CrawlState :=
  if !((seedSitemap sitemapUrls ([], [])).2.contains (normaliseUrl siteUrl)) then
    ⟨normaliseUrl siteUrl :: (seedSitemap sitemapUrls ([], [])).1,
     (seedSitemap sitemapUrls ([], [])).2 ++ [normaliseUrl siteUrl], 0, [], [], 0⟩
  else
    ⟨(seedSitemap sitemapUrls ([], [])).1, (seedSitemap sitemapUrls ([], [])).2, 0, [], [], 0⟩

/-- Embedding of `crawl`. -/
def crawlModel (web : String → Option FetchResp) (siteUrl : String)
    (sitemapUrls : List String) (maxPages fuel : Nat) : CrawlState :=
  crawlLoop web maxPages fuel (seedState siteUrl sitemapUrls)

/-- C4 counterexample: a sitemap that lists a URL on a foreign origin.
The seed loop applies no origin check, so the BFS fetches the foreign URL
even though it is not same-origin with `SITE_URL`. -/
theorem c4_sitemap_cross_origin_counterexample :
    "http://evil.com/x" ∈ (crawlModel
      (fun u => if u = "http://good.com" then some ⟨200, "text/html", []⟩
                else if u = "http://evil.com/x" then some ⟨200, "text/html", []⟩
                else none)
      "http://good.com" ["http://evil.com/x"] 5 10).fetched ∧
    sameOrigin "http://good.com" "http://evil.com/x" = false := by
  refine ⟨by decide, by decide⟩

theorem enqueue_mem (maxPages : Nat) (links : List String) (q v : List String)
    (u : String) (h : u ∈ (enqueue maxPages links (q, v)).1) : u ∈ q ∨ u ∈ links := by
  induction links generalizing q v with
  | nil => exact Or.inl h
  | cons link rest ih =>
    rw [enqueue] at h
    split at h
    · rcases ih _ _ h with h2 | h2
      · rcases List.mem_append.mp h2 with h3 | h3
        · exact Or.inl h3
        · right
          rw [List.mem_singleton.mp h3]
          exact List.mem_cons_self link rest
      · exact Or.inr (List.mem_cons_of_mem link h2)
    · rcases ih _ _ h with h2 | h2
      · exact Or.inl h2
      · exact Or.inr (List.mem_cons_of_mem link h2)

theorem seedSitemap_mem (l : List String) (q v : List String) (u : String)
    (h : u ∈ (seedSitemap l (q, v)).1) : u ∈ q ∨ ∃ s ∈ l, u = normaliseUrl s := by
  induction l generalizing q v with
  | nil => exact Or.inl h
  | cons s rest ih =>
    rw [seedSitemap] at h
    split at h
    · rcases ih _ _ h with h2 | h2
      · rcases List.mem_append.mp h2 with h3 | h3
        · exact Or.inl h3
        · exact Or.inr ⟨s, List.mem_cons_self s rest, List.mem_singleton.mp h3⟩
      · rcases h2 with ⟨s2, hs2, he⟩
        exact Or.inr ⟨s2, List.mem_cons_of_mem s hs2, he⟩
    · rcases ih _ _ h with h2 | h2
      · exact Or.inl h2
      · rcases h2 with ⟨s2, hs2, he⟩
        exact Or.inr ⟨s2, List.mem_cons_of_mem s hs2, he⟩

theorem extractLinks_sameOrigin (hrefs : List String) (base : String) (u : String)
    (h : u ∈ extractLinks hrefs base) : netlocOf u = netlocOf base := by
  rw [extractLinks] at h
  have := (List.mem_filter.mp h).2
  rw [Bool.and_eq_true] at this
  have h2 := this.1
  rw [sameOrigin] at h2
  exact of_decide_eq_true h2

/-- Same-origin invariant of the crawl state. -/
def crawlInv (site : String) (st : CrawlState) : Prop :=
  (∀ u ∈ st.queue, netlocOf u = netlocOf site) ∧
  (∀ u ∈ st.fetched, netlocOf u = netlocOf site)

theorem crawlStep_inv (web : String → Option FetchResp) (maxPages : Nat)
    (site : String) (st : CrawlState) (hinv : crawlInv site st) :
    crawlInv site (crawlStep web maxPages st) := by
  rcases hinv with ⟨hq, hf⟩
  rw [crawlStep]
  split
  · exact ⟨hq, hf⟩
  · rename_i url hget
    have hurl : netlocOf url = netlocOf site := hq url (List.get?_mem hget)
    have hfetch : ∀ u ∈ st.fetched ++ [url], netlocOf u = netlocOf site := by
      intro u hu
      rcases List.mem_append.mp hu with h | h
      · exact hf u h
      · rw [List.mem_singleton.mp h]; exact hurl
    split
    · exact ⟨hq, hfetch⟩
    · rename_i r hweb
      split
      · exact ⟨hq, hfetch⟩
      · split
        · exact ⟨hq, hfetch⟩
        · refine ⟨?_, hfetch⟩
          intro u hu
          rcases enqueue_mem maxPages (extractLinks r.hrefs url) st.queue st.visited u hu
            with h | h
          · exact hq u h
          · rw [extractLinks_sameOrigin r.hrefs url u h]
            exact hurl

theorem crawlLoop_inv (web : String → Option FetchResp) (maxPages : Nat)
    (site : String) (fuel : Nat) (st : CrawlState) (hinv : crawlInv site st) :
    crawlInv site (crawlLoop web maxPages fuel st) := by
  induction fuel generalizing st with
  | zero => exact hinv
  | succ fuel ih =>
    rw [crawlLoop]
    split
    · exact ih _ (crawlStep_inv web maxPages site st hinv)
    · exact hinv

/-- C4 (amended): every URL the BFS loop fetches is same-origin with
`SITE_URL`, PROVIDED every sitemap seed normalises to the site's origin
(and trivially the normalised root itself does).  Link discovery enforces
same-origin with the page the link was found on, which propagates the
site origin; sitemap seeds, however, enter the queue unchecked, so the
proviso cannot be dropped (see the counterexample). -/
theorem c4_crawler_same_origin_amended (web : String → Option FetchResp)
    (siteUrl : String) (sitemapUrls : List String) (maxPages fuel : Nat)
    (hsm : ∀ u ∈ sitemapUrls, netlocOf (normaliseUrl u) = netlocOf siteUrl)
    (hroot : netlocOf (normaliseUrl siteUrl) = netlocOf siteUrl) :
    ∀ u ∈ (crawlModel web siteUrl sitemapUrls maxPages fuel).fetched,
      netlocOf u = netlocOf siteUrl := by
  have hseedq : ∀ u ∈ (seedState siteUrl sitemapUrls).queue, netlocOf u = netlocOf siteUrl := by
    intro u hu
    rw [seedState] at hu
    have hmem : u = normaliseUrl siteUrl ∨ u ∈ (seedSitemap sitemapUrls ([], [])).1 := by
      split at hu
      · rcases List.mem_cons.mp hu with h | h
        · exact Or.inl h
        · exact Or.inr h
      · exact Or.inr hu
    rcases hmem with h | h
    · rw [h]; exact hroot
    · rcases seedSitemap_mem sitemapUrls [] [] u h with h2 | h2
      · exact absurd h2 (List.not_mem_nil u)
      · rcases h2 with ⟨s, hs, he⟩
        rw [he]
        exact hsm s hs
  have hseed : crawlInv siteUrl (seedState siteUrl sitemapUrls) := by
    refine ⟨hseedq, ?_⟩
    intro u hu
    rw [seedState] at hu
    split at hu <;> exact absurd hu (List.not_mem_nil u)
  exact (crawlLoop_inv web maxPages siteUrl fuel _ hseed).2

/-- C4 witness: the amended theorem applied to a concrete crawl whose
sitemap seed is same-origin; the fetched seed URL has the site's origin. -/
theorem c4_crawler_same_origin_amended_witness :
    netlocOf "http://good.com/a" = netlocOf "http://good.com" :=
  c4_crawler_same_origin_amended
    (fun u => if u = "http://good.com" then some ⟨200, "text/html", ["http://good.com/a"]⟩
              else if u = "http://good.com/a" then some ⟨200, "text/html", []⟩
              else none)
    "http://good.com" ["http://good.com/a"] 5 10
    (by decide) (by decide) "http://good.com/a" (by decide)

/-! ## C10 — `_split_long_text` (src/sidecar/chunker.py 86-101)

Text at most `max_len` characters long is returned as a single chunk.
Longer text is split by `re.split(r"(?<=[.!?])\s+", text)` — a cut after
each sentence-ending character at every maximal whitespace run — and the
sentences are greedily packed: the running `current` string is flushed
(stripped) whenever appending the next sentence would exceed `max_len`. -/

def isSentEnd (c : Char) : Bool := c = '.' || c = '!' || c = '?'

/-- Scanner for `re.split(r"(?<=[.!?])\s+", text)`: `acc` holds the
current piece reversed; on whitespace preceded by a sentence ender the
piece is flushed and the whole whitespace run consumed (the `skip` flag
marks that the run is still being consumed, keeping the recursion
structural). -/
def splitSentencesAux : List Char → List Char → Bool → List (List Char)
  | [], acc, _ => [acc.reverse]
  | c :: rest, acc, skip =>
    if skip && pyIsSpace c then
      splitSentencesAux rest acc true
    else if pyIsSpace c && (match acc.head? with | some p => isSentEnd p | none => false) then
      acc.reverse :: splitSentencesAux rest [] true
    else
      splitSentencesAux rest (c :: acc) false

def splitSentences (l : List Char) : List (List Char) := splitSentencesAux l [] false

structure MChunk where
  text : List Char
  chunkType : String
deriving DecidableEq

/-- Python `" ".join` on character lists, matching how `current` grows. -/
def joinSpChars : List (List Char) → List Char
  | [] => []
  | [s] => s
  | s :: rest => s ++ ' ' :: joinSpChars rest

/-- The greedy packing loop of `_split_long_text`. -/
def packLoop (ty : String) (maxLen : Nat) : List (List Char) → List Char → List MChunk
  | [], current =>
    if pyStripList current ≠ [] then [⟨pyStripList current, ty⟩] else []
  | s :: rest, current =>
    if current ≠ [] ∧ maxLen < current.length + s.length + 1 then
      ⟨pyStripList current, ty⟩ :: packLoop ty maxLen rest s
    else
      packLoop ty maxLen rest (if current = [] then s else current ++ ' ' :: s)

/-- Embedding of `_split_long_text`. -/
def splitLongText (maxLen : Nat) (text : List Char) (ty : String) : List MChunk :=
  if text.length ≤ maxLen then [⟨text, ty⟩]
  else packLoop ty maxLen (splitSentences text) []

/-- Absence of a sentence boundary: no `.`, `!` or `?` immediately
followed by whitespace. -/
def noBoundary (l : List Char) : Prop :=
  List.Chain' (fun a b => ¬(isSentEnd a = true ∧ pyIsSpace b = true)) l

theorem isSentEnd_not_space (c : Char) (h : isSentEnd c = true) : pyIsSpace c = false := by
  rw [isSentEnd] at h
  rcases Bool.or_eq_true _ _ |>.mp h with h2 | h2
  · rcases Bool.or_eq_true _ _ |>.mp h2 with h3 | h3
    · rw [of_decide_eq_true h3]; decide
    · rw [of_decide_eq_true h3]; decide
  · rw [of_decide_eq_true h2]; decide

theorem splitSentencesAux_ne_nil (l acc : List Char) (skip : Bool) :
    splitSentencesAux l acc skip ≠ [] := by
  induction l generalizing acc skip with
  | nil => simp [splitSentencesAux]
  | cons c rest ih =>
    rw [splitSentencesAux]
    split
    · exact ih acc true
    · split
      · exact List.cons_ne_nil _ _
      · exact ih (c :: acc) false

theorem splitSentencesAux_dropLast_sentEnd (l : List Char) :
    ∀ (acc : List Char) (skip : Bool),
      ∀ p ∈ (splitSentencesAux l acc skip).dropLast, ∃ c ∈ p, isSentEnd c = true := by
  induction l with
  | nil => intro acc skip p hp; simp [splitSentencesAux] at hp
  | cons c rest ih =>
    intro acc skip p hp
    rw [splitSentencesAux] at hp
    split at hp
    · exact ih acc true p hp
    · split at hp
      · rename_i hcond
        rw [List.dropLast_cons_of_ne_nil (splitSentencesAux_ne_nil rest [] true)] at hp
        rcases List.mem_cons.mp hp with h | h
        · rw [Bool.and_eq_true] at hcond
          rcases hh : acc.head? with _ | p0
          · rw [hh] at hcond; simp at hcond
          · have hse : isSentEnd p0 = true := by
              have := hcond.2
              rw [hh] at this
              exact this
            refine ⟨p0, ?_, hse⟩
            rw [h, List.mem_reverse]
            exact List.mem_of_mem_head? hh
        · exact ih [] true p h
      · exact ih (c :: acc) false p hp

theorem splitSentencesAux_noBoundary (l : List Char) :
    ∀ (acc : List Char) (skip : Bool),
      List.Chain' (fun a b => ¬(isSentEnd a = true ∧ pyIsSpace b = true)) acc.reverse →
      ∀ p ∈ splitSentencesAux l acc skip, noBoundary p := by
  induction l with
  | nil =>
    intro acc skip hacc p hp
    rw [splitSentencesAux] at hp
    rw [List.mem_singleton.mp hp]
    exact hacc
  | cons c rest ih =>
    intro acc skip hacc p hp
    rw [splitSentencesAux] at hp
    split at hp
    · exact ih acc true hacc p hp
    · split at hp
      · rcases List.mem_cons.mp hp with h | h
        · rw [h]; exact hacc
        · exact ih [] true (by simp) p h
      · rename_i hsk hcond
        refine ih (c :: acc) false ?_ p hp
        rw [List.reverse_cons]
        rw [List.chain'_append]
        refine ⟨hacc, List.chain'_singleton c, ?_⟩
        intro x hx y hy
        rw [List.getLast?_reverse] at hx
        rw [List.head?_cons, Option.mem_some_iff] at hy
        intro ⟨hse, hws⟩
        apply hcond
        rw [Bool.and_eq_true]
        refine ⟨by rw [← hy] at hws; exact hws, ?_⟩
        rw [Option.mem_def] at hx
        rw [hx]
        exact hse

theorem pyStripList_eq_nil_iff (l : List Char) :
    pyStripList l = [] ↔ ∀ c ∈ l, pyIsSpace c = true := by
  constructor
  · intro h c hc
    rw [pyStripList] at h
    have h2 : (l.dropWhile pyIsSpace).reverse.dropWhile pyIsSpace = [] := by
      have := congrArg List.reverse h
      rwa [List.reverse_reverse] at this
    have hdrop : ∀ x ∈ l.dropWhile pyIsSpace, pyIsSpace x = true := by
      intro x hx
      exact List.dropWhile_eq_nil_iff.mp h2 x (List.mem_reverse.mpr hx)
    conv at hc => rw [← List.takeWhile_append_dropWhile (p := pyIsSpace) (l := l)]
    rcases List.mem_append.mp hc with h3 | h3
    · exact List.mem_takeWhile_imp h3
    · exact hdrop c h3
  · intro h
    rw [pyStripList, List.dropWhile_eq_nil_iff.mpr h]
    rfl

theorem pyStripList_length_le (l : List Char) : (pyStripList l).length ≤ l.length := by
  rw [pyStripList]
  have h1 : (l.dropWhile pyIsSpace).length ≤ l.length := by
    conv_rhs => rw [← List.takeWhile_append_dropWhile (p := pyIsSpace) (l := l)]
    rw [List.length_append]; omega
  have h2 : ((l.dropWhile pyIsSpace).reverse.dropWhile pyIsSpace).length ≤
      (l.dropWhile pyIsSpace).reverse.length := by
    conv_rhs => rw [← List.takeWhile_append_dropWhile (p := pyIsSpace)
      (l := (l.dropWhile pyIsSpace).reverse)]
    rw [List.length_append]; omega
  rw [List.length_reverse]
  rw [List.length_reverse] at h2
  omega

theorem pyStripList_isInfixOf (l : List Char) : pyStripList l <:+: l := by
  refine ⟨l.takeWhile pyIsSpace,
    ((l.dropWhile pyIsSpace).reverse.takeWhile pyIsSpace).reverse, ?_⟩
  have hmid : l.dropWhile pyIsSpace =
      pyStripList l ++ ((l.dropWhile pyIsSpace).reverse.takeWhile pyIsSpace).reverse := by
    conv_lhs => rw [← List.reverse_reverse (l.dropWhile pyIsSpace)]
    conv_lhs => rw [← List.takeWhile_append_dropWhile (p := pyIsSpace)
      (l := (l.dropWhile pyIsSpace).reverse)]
    rw [List.reverse_append]
    rfl
  have h2 : l = l.takeWhile pyIsSpace ++ (pyStripList l ++
      ((l.dropWhile pyIsSpace).reverse.takeWhile pyIsSpace).reverse) := by
    conv_lhs => rw [← List.takeWhile_append_dropWhile (p := pyIsSpace) (l := l)]
    exact congrArg (fun x => l.takeWhile pyIsSpace ++ x) hmid
  exact (h2.trans (List.append_assoc _ _ _).symm).symm

theorem noBoundary_pyStripList (l : List Char) (h : noBoundary l) :
    noBoundary (pyStripList l) := by
  exact List.Chain'.infix h (pyStripList_isInfixOf l)

theorem joinSpChars_append_single (g : List (List Char)) (s : List Char) (h : g ≠ []) :
    joinSpChars (g ++ [s]) = joinSpChars g ++ ' ' :: s := by
  induction g with
  | nil => exact absurd rfl h
  | cons x t ih =>
    cases t with
    | nil => rfl
    | cons y t2 =>
      rw [show (x :: y :: t2) ++ [s] = x :: ((y :: t2) ++ [s]) from rfl]
      rw [show joinSpChars (x :: ((y :: t2) ++ [s])) =
        x ++ ' ' :: joinSpChars ((y :: t2) ++ [s]) from rfl]
      rw [ih (List.cons_ne_nil y t2)]
      rw [show joinSpChars (x :: y :: t2) = x ++ ' ' :: joinSpChars (y :: t2) from rfl]
      simp

theorem packLoop_nonempty (ty : String) (maxLen : Nat) (rest : List (List Char)) :
    ∀ current : List Char,
      (current ≠ [] → rest ≠ [] → ∃ c ∈ current, pyIsSpace c = false) →
      (∀ s ∈ rest.dropLast, ∃ c ∈ s, isSentEnd c = true) →
      ∀ ch ∈ packLoop ty maxLen rest current, ch.text ≠ [] := by
  induction rest with
  | nil =>
    intro current _ _ ch hch
    rw [packLoop] at hch
    split at hch
    · rename_i hne
      rw [List.mem_singleton.mp hch]
      exact hne
    · exact absurd hch (List.not_mem_nil ch)
  | cons s rest2 ih =>
    intro current hc hsent ch hch
    have hmem_cur : ∀ cur : List Char, (∃ c ∈ cur, pyIsSpace c = false) →
        pyStripList cur ≠ [] := by
      intro cur ⟨c, hcm, hcw⟩ hnil
      have := (pyStripList_eq_nil_iff cur).mp hnil c hcm
      rw [this] at hcw
      exact absurd hcw (by simp)
    have hs_sent : rest2 ≠ [] → ∃ c ∈ s, isSentEnd c = true := by
      intro hr2
      apply hsent s
      rw [List.dropLast_cons_of_ne_nil hr2]
      exact List.mem_cons_self s rest2.dropLast
    have hsent2 : ∀ x ∈ rest2.dropLast, ∃ c ∈ x, isSentEnd c = true := by
      intro x hx
      by_cases hr2 : rest2 = []
      · rw [hr2] at hx; exact absurd hx (List.not_mem_nil x)
      · apply hsent x
        rw [List.dropLast_cons_of_ne_nil hr2]
        exact List.mem_cons_of_mem s hx
    rw [packLoop] at hch
    split at hch
    · rename_i hcond
      rcases List.mem_cons.mp hch with h | h
      · rw [h]
        show pyStripList current ≠ []
        exact hmem_cur current (hc hcond.1 (List.cons_ne_nil s rest2))
      · refine ih s ?_ hsent2 ch h
        intro _ hr2
        rcases hs_sent hr2 with ⟨c, hcm, hcse⟩
        exact ⟨c, hcm, isSentEnd_not_space c hcse⟩
    · refine ih _ ?_ hsent2 ch hch
      intro _ hr2
      rcases hs_sent hr2 with ⟨c, hcm, hcse⟩
      refine ⟨c, ?_, isSentEnd_not_space c hcse⟩
      by_cases hcur : current = []
      · rw [if_pos hcur]; exact hcm
      · rw [if_neg hcur]
        exact List.mem_append.mpr (Or.inr (List.mem_cons_of_mem ' ' hcm))

theorem packLoop_cap (ty : String) (maxLen : Nat) (rest : List (List Char)) :
    ∀ current : List Char,
      (current = [] ∨ current.length ≤ maxLen ∨ noBoundary current) →
      (∀ s ∈ rest, noBoundary s) →
      ∀ ch ∈ packLoop ty maxLen rest current,
        ch.text.length ≤ maxLen ∨ noBoundary ch.text := by
  induction rest with
  | nil =>
    intro current hc _ ch hch
    rw [packLoop] at hch
    split at hch
    · rw [List.mem_singleton.mp hch]
      show (pyStripList current).length ≤ maxLen ∨ noBoundary (pyStripList current)
      rcases hc with hc | hc | hc
      · rw [hc]; left; simp [pyStripList]
      · left; exact le_trans (pyStripList_length_le current) hc
      · right; exact noBoundary_pyStripList current hc
    · exact absurd hch (List.not_mem_nil ch)
  | cons s rest2 ih =>
    intro current hc hnb ch hch
    have hnb2 : ∀ x ∈ rest2, noBoundary x := fun x hx => hnb x (List.mem_cons_of_mem s hx)
    have hnbs : noBoundary s := hnb s (List.mem_cons_self s rest2)
    rw [packLoop] at hch
    split at hch
    · rcases List.mem_cons.mp hch with h | h
      · rw [h]
        show (pyStripList current).length ≤ maxLen ∨ noBoundary (pyStripList current)
        rcases hc with hc | hc | hc
        · rw [hc]; left; simp [pyStripList]
        · left; exact le_trans (pyStripList_length_le current) hc
        · right; exact noBoundary_pyStripList current hc
      · exact ih s (Or.inr (Or.inr hnbs)) hnb2 ch h
    · rename_i hcond
      refine ih _ ?_ hnb2 ch hch
      by_cases hcur : current = []
      · rw [if_pos hcur]
        exact Or.inr (Or.inr hnbs)
      · rw [if_neg hcur]
        right
        left
        rw [List.length_append, List.length_cons]
        have hlen : ¬(maxLen < current.length + s.length + 1) := by
          intro hx
          exact hcond ⟨hcur, hx⟩
        omega

theorem packLoop_groups (ty : String) (maxLen : Nat) (rest : List (List Char)) :
    ∀ (current : List Char) (g0 : List (List Char)),
      current = joinSpChars g0 →
      ((current = [] → g0 = []) ∨ rest = []) →
      (current ≠ [] → rest ≠ [] → ∃ c ∈ current, pyIsSpace c = false) →
      (∀ s ∈ rest.dropLast, ∃ c ∈ s, isSentEnd c = true) →
      ∃ groups : List (List (List Char)), groups.flatten = g0 ++ rest ∧
        (packLoop ty maxLen rest current).map (fun ch => ch.text) =
          (groups.map (fun g => pyStripList (joinSpChars g))).filter (fun x => x ≠ []) := by
  induction rest with
  | nil =>
    intro current g0 hA _ _ _
    refine ⟨[g0], by simp, ?_⟩
    rw [packLoop]
    split
    · rename_i hne
      simp only [List.map_cons, List.map_nil, List.filter_cons, List.filter_nil]
      rw [← hA, if_pos (by simpa using hne)]
    · rename_i hne
      have h2 : pyStripList current = [] := of_not_not hne
      simp only [List.map_cons, List.map_nil, List.filter_cons, List.filter_nil]
      rw [← hA, if_neg (by simp [h2])]
  | cons s rest2 ih =>
    intro current g0 hA hB hc hsent
    have hB' : current = [] → g0 = [] := by
      rcases hB with h | h
      · exact h
      · exact absurd h (List.cons_ne_nil s rest2)
    have hs_sent : rest2 ≠ [] → ∃ c ∈ s, isSentEnd c = true := by
      intro hr2
      apply hsent s
      rw [List.dropLast_cons_of_ne_nil hr2]
      exact List.mem_cons_self s rest2.dropLast
    have hsent2 : ∀ x ∈ rest2.dropLast, ∃ c ∈ x, isSentEnd c = true := by
      intro x hx
      by_cases hr2 : rest2 = []
      · rw [hr2] at hx; exact absurd hx (List.not_mem_nil x)
      · apply hsent x
        rw [List.dropLast_cons_of_ne_nil hr2]
        exact List.mem_cons_of_mem s hx
    rw [packLoop]
    split
    · rename_i hcond
      have hBnew : (s = [] → [s] = []) ∨ rest2 = [] := by
        by_cases hr2 : rest2 = []
        · exact Or.inr hr2
        · left
          intro hs
          rcases hs_sent hr2 with ⟨c, hcm, _⟩
          rw [hs] at hcm
          exact absurd hcm (List.not_mem_nil c)
      have hcnew : s ≠ [] → rest2 ≠ [] → ∃ c ∈ s, pyIsSpace c = false := by
        intro _ hr2
        rcases hs_sent hr2 with ⟨c, hcm, hcse⟩
        exact ⟨c, hcm, isSentEnd_not_space c hcse⟩
      rcases ih s [s] rfl hBnew hcnew hsent2 with ⟨groups, hflat, hmap⟩
      refine ⟨g0 :: groups, ?_, ?_⟩
      · rw [List.flatten_cons, hflat]
        rfl
      · rw [List.map_cons, hmap, List.map_cons, List.filter_cons]
        have hstrip : pyStripList (joinSpChars g0) ≠ [] := by
          rw [← hA]
          intro hnil
          rcases hc hcond.1 (List.cons_ne_nil s rest2) with ⟨c, hcm, hcw⟩
          have := (pyStripList_eq_nil_iff current).mp hnil c hcm
          rw [this] at hcw
          exact absurd hcw (by simp)
        rw [if_pos (by simpa using hstrip)]
        rw [← hA]
    · rename_i hcond
      have hcur' : (if current = [] then s else current ++ ' ' :: s) =
          joinSpChars (g0 ++ [s]) := by
        by_cases hcur : current = []
        · rw [if_pos hcur, hB' hcur]
          rfl
        · rw [if_neg hcur]
          have hg0 : g0 ≠ [] := by
            intro hg
            rw [hg] at hA
            exact hcur hA
          rw [joinSpChars_append_single g0 s hg0, hA]
      have hBnew : ((if current = [] then s else current ++ ' ' :: s) = [] →
          g0 ++ [s] = []) ∨ rest2 = [] := by
        by_cases hr2 : rest2 = []
        · exact Or.inr hr2
        · left
          intro hx
          exfalso
          rcases hs_sent hr2 with ⟨c, hcm, _⟩
          by_cases hcur : current = []
          · rw [if_pos hcur] at hx
            rw [hx] at hcm
            exact absurd hcm (List.not_mem_nil c)
          · rw [if_neg hcur] at hx
            exact absurd hx (by simp)
      have hcnew : (if current = [] then s else current ++ ' ' :: s) ≠ [] →
          rest2 ≠ [] → ∃ c ∈ (if current = [] then s else current ++ ' ' :: s),
            pyIsSpace c = false := by
        intro _ hr2
        rcases hs_sent hr2 with ⟨c, hcm, hcse⟩
        refine ⟨c, ?_, isSentEnd_not_space c hcse⟩
        by_cases hcur : current = []
        · rw [if_pos hcur]; exact hcm
        · rw [if_neg hcur]
          exact List.mem_append.mpr (Or.inr (List.mem_cons_of_mem ' ' hcm))
      rcases ih _ (g0 ++ [s]) hcur' hBnew hcnew hsent2 with ⟨groups, hflat, hmap⟩
      refine ⟨groups, ?_, hmap⟩
      rw [hflat, List.append_assoc]
      rfl

/-- C10 counterexample: on the empty input text the length test passes
and the function returns a single chunk whose text is empty, violating
the claimed non-emptiness for every input text. -/
theorem c10_empty_text_counterexample :
    splitLongText 1500 [] "paragraph" = [⟨[], "paragraph"⟩] ∧
    ((⟨[], "paragraph"⟩ : MChunk) ∈ splitLongText 1500 [] "paragraph" ∧
      (⟨[], "paragraph"⟩ : MChunk).text = []) := by
  refine ⟨by decide, by decide, by decide⟩

/-- C10 (amended): for every NON-EMPTY input text, every chunk emitted by
`_split_long_text` has non-empty text; every emitted chunk either has at
most 1500 characters or contains no sentence boundary (`.`, `!` or `?`
followed by whitespace); and the emitted chunk texts are, in order,
either the input itself (when it fits the cap) or the non-empty stripped
space-joins of a partition of the input's sentence list into consecutive
groups — so concatenating the chunks in order, separated by single
spaces, preserves every sentence of the input in order. -/
theorem c10_split_long_text_amended (text : List Char) (ty : String) :
    (text ≠ [] → ∀ ch ∈ splitLongText 1500 text ty, ch.text ≠ []) ∧
    (∀ ch ∈ splitLongText 1500 text ty, ch.text.length ≤ 1500 ∨ noBoundary ch.text) ∧
    ((splitLongText 1500 text ty).map (fun ch => ch.text) = [text] ∨
      ∃ groups : List (List (List Char)), groups.flatten = splitSentences text ∧
        (splitLongText 1500 text ty).map (fun ch => ch.text) =
          (groups.map (fun g => pyStripList (joinSpChars g))).filter (fun x => x ≠ [])) := by
  by_cases hlen : text.length ≤ 1500
  · refine ⟨?_, ?_, ?_⟩
    · intro hne ch hch
      rw [splitLongText, if_pos hlen] at hch
      rw [List.mem_singleton.mp hch]
      exact hne
    · intro ch hch
      rw [splitLongText, if_pos hlen] at hch
      rw [List.mem_singleton.mp hch]
      exact Or.inl hlen
    · left
      rw [splitLongText, if_pos hlen]
      rfl
  · have hrun : splitLongText 1500 text ty = packLoop ty 1500 (splitSentences text) [] := by
      rw [splitLongText, if_neg hlen]
    have hsent : ∀ s ∈ (splitSentences text).dropLast, ∃ c ∈ s, isSentEnd c = true :=
      splitSentencesAux_dropLast_sentEnd text [] false
    have hnb : ∀ s ∈ splitSentences text, noBoundary s :=
      splitSentencesAux_noBoundary text [] false (by simp)
    refine ⟨?_, ?_, ?_⟩
    · intro _ ch hch
      rw [hrun] at hch
      exact packLoop_nonempty ty 1500 (splitSentences text) []
        (fun h _ => absurd rfl h) hsent ch hch
    · intro ch hch
      rw [hrun] at hch
      exact packLoop_cap ty 1500 (splitSentences text) [] (Or.inl rfl) hnb ch hch
    · right
      rcases packLoop_groups ty 1500 (splitSentences text) [] [] rfl
        (Or.inl (fun _ => rfl)) (fun h _ => absurd rfl h) hsent with ⟨groups, hflat, hmap⟩
      refine ⟨groups, by simpa using hflat, ?_⟩
      rw [hrun]
      exact hmap

/-- C10 witness: the amended theorem's non-emptiness applied to a concrete
short text. -/
theorem c10_split_long_text_amended_witness :
    MChunk.text ⟨"ab. cd. ef.".data, "paragraph"⟩ ≠ [] :=
  (c10_split_long_text_amended "ab. cd. ef.".data "paragraph").1 (by decide)
    ⟨"ab. cd. ef.".data, "paragraph"⟩ (by decide)

/-! ## C6 — sync-token codec (src/sidecar/sync_utils.py 25-50)

`encode_sync_token` base64-encodes the UTF-8 bytes of
`json.dumps({"t": as_of_iso})`; `decode_sync_token` base64-decodes,
JSON-parses, and converts the `"t"` member through
`datetime.fromisoformat(...).timestamp()`.  Bytes are `Nat` (< 256), the
standard base64 alphabet and padding are modelled exactly, and the JSON
layer is modelled on the single object shape `{"t": "<plain string>"}`
the codec produces (the portion of `json.dumps`/`json.loads` it
exercises; any other parse failure is `None` in both).  `fromisoformat`
composed with `.timestamp()` is abstracted as a parameter
`fromIso : String → Option Int` — the claim's "timestamp denoted by t". -/

def b64Alphabet : List Char :=
  "ABCDEFGHIJKLMNOPQRSTUVWXYZabcdefghijklmnopqrstuvwxyz0123456789+/".data

def charOfSextet (n : Nat) : Char := b64Alphabet.getD n 'A'

def sextetOfChar (c : Char) : Option Nat :=
  (b64Alphabet.findIdx? (fun x => x = c)).bind (fun i => some i)

def b64encode : List Nat → List Char
  | a :: b :: c :: rest =>
    charOfSextet (a / 4) :: charOfSextet ((a % 4) * 16 + b / 16) ::
      charOfSextet ((b % 16) * 4 + c / 64) :: charOfSextet (c % 64) :: b64encode rest
  | [a, b] =>
    [charOfSextet (a / 4), charOfSextet ((a % 4) * 16 + b / 16),
     charOfSextet ((b % 16) * 4), '=']
  | [a] =>
    [charOfSextet (a / 4), charOfSextet ((a % 4) * 16), '=', '=']
  | [] => []
def b64decode : List Char → Option (List Nat)
  | [] => some []
  | c1 :: c2 :: c3 :: c4 :: rest =>
    (sextetOfChar c1).bind (fun s1 =>
      (sextetOfChar c2).bind (fun s2 =>
        if c3 = '=' && c4 = '=' && rest.isEmpty then
          some [s1 * 4 + s2 / 16]
        else if c4 = '=' && rest.isEmpty then
          (sextetOfChar c3).bind (fun s3 =>
            some [s1 * 4 + s2 / 16, (s2 % 16) * 16 + s3 / 4])
        else
          (sextetOfChar c3).bind (fun s3 =>
            (sextetOfChar c4).bind (fun s4 =>
              (b64decode rest).map
                (fun bs => (s1 * 4 + s2 / 16) :: ((s2 % 16) * 16 + s3 / 4) ::
                  ((s3 % 4) * 64 + s4) :: bs)))))
  | _ => none

theorem sextet_char_roundtrip : ∀ n < 64, sextetOfChar (charOfSextet n) = some n := by
  decide

theorem charOfSextet_ne_pad : ∀ n < 64, charOfSextet n ≠ '=' := by
  decide

theorem b64_roundtrip : ∀ bs : List Nat, (∀ b ∈ bs, b < 256) →
    b64decode (b64encode bs) = some bs := by
  intro bs
  induction bs using b64encode.induct with
  | case4 => intro _; rfl
  | case3 a =>
    intro h
    have ha : a < 256 := h a (List.mem_singleton_self a)
    rw [b64encode, b64decode]
    rw [sextet_char_roundtrip (a / 4) (by omega),
      sextet_char_roundtrip ((a % 4) * 16) (by omega)]
    rw [Option.some_bind, Option.some_bind]
    rw [if_pos (by decide)]
    simp only [Option.some.injEq, List.cons.injEq, and_true]
    omega
  | case2 a b =>
    intro h
    have ha : a < 256 := h a (by simp)
    have hb : b < 256 := h b (by simp)
    rw [b64encode, b64decode]
    rw [sextet_char_roundtrip (a / 4) (by omega),
      sextet_char_roundtrip ((a % 4) * 16 + b / 16) (by omega)]
    rw [Option.some_bind, Option.some_bind]
    have hne3 : charOfSextet ((b % 16) * 4) ≠ '=' := charOfSextet_ne_pad _ (by omega)
    rw [if_neg (by simp [hne3])]
    rw [if_pos (by simp)]
    rw [sextet_char_roundtrip ((b % 16) * 4) (by omega), Option.some_bind]
    simp only [Option.some.injEq, List.cons.injEq, and_true]
    constructor
    · omega
    · omega
  | case1 a b c rest ih =>
    intro h
    have ha : a < 256 := h a (by simp)
    have hb : b < 256 := h b (by simp)
    have hc : c < 256 := h c (by simp)
    have hrest : ∀ x ∈ rest, x < 256 := by
      intro x hx
      exact h x (by simp [hx])
    rw [b64encode, b64decode]
    rw [sextet_char_roundtrip (a / 4) (by omega),
      sextet_char_roundtrip ((a % 4) * 16 + b / 16) (by omega)]
    rw [Option.some_bind, Option.some_bind]
    have hne3 : charOfSextet ((b % 16) * 4 + c / 64) ≠ '=' := charOfSextet_ne_pad _ (by omega)
    have hne4 : charOfSextet (c % 64) ≠ '=' := charOfSextet_ne_pad _ (by omega)
    rw [if_neg (by simp [hne3])]
    rw [if_neg (by simp [hne4])]
    rw [sextet_char_roundtrip ((b % 16) * 4 + c / 64) (by omega), Option.some_bind,
      sextet_char_roundtrip (c % 64) (by omega), Option.some_bind]
    rw [ih hrest]
    simp only [Option.map_some', Option.some.injEq, List.cons.injEq]
    refine ⟨by omega, by omega, by omega, trivial⟩

def strBytes (l : List Char) : List Nat := l.map (fun c => c.toNat)

/-- UTF-8 bytes of `json.dumps({"t": t})` for a plain-ASCII `t` without
`"` or `\` (the only payloads the codec produces). -/
def jsonPayload (t : List Char) : List Char :=
  "\x7b\"t\": \"".data ++ t ++ "\"\x7d".data

def encodeSyncToken (t : List Char) : List Char :=
  b64encode (strBytes (jsonPayload t))

/-- The portion of `json.loads` exercised by `decode_sync_token`: parse
`b'\x7b"t": "<content>"\x7d'` and return the content bytes; anything else
is a failure (`None` after the `except`). -/
def jsonParseT (bs : List Nat) : Option (List Nat) :=
  if (strBytes "\x7b\"t\": \"".data).isPrefixOf bs then
    match (bs.drop 7).span (fun b => b ≠ 34) with
    | (content, 34 :: after) => if after = [125] then some content else none
    | _ => none
  else none

def bytesToChars (bs : List Nat) : List Char := bs.map (fun b => Char.ofNat b)

/-- Embedding of `decode_sync_token`; `fromIso` stands for
`datetime.fromisoformat(·).timestamp()`, `none` for any raise. -/
def decodeSyncToken (fromIso : String → Option Int) (tok : List Char) : Option Int :=
  (b64decode tok).bind (fun bs =>
    (jsonParseT bs).bind (fun content => fromIso ⟨bytesToChars content⟩))

/-- Embedding of `parse_since`: RFC 3339 first, then the token decoder. -/
def parseSince (fromIso : String → Option Int) (raw : List Char) : Option Int :=
  (fromIso ⟨raw⟩).orElse (fun _ => decodeSyncToken fromIso raw)

theorem isPrefixOf_append_self (l m : List Nat) : l.isPrefixOf (l ++ m) = true := by
  induction l with
  | nil =>
    cases m with
    | nil => rfl
    | cons b bs => rfl
  | cons a t ih => simp [List.isPrefixOf, ih]

theorem span_stop_at (xs ys : List Nat) (hx : ∀ x ∈ xs, x ≠ 34) :
    (xs ++ 34 :: ys).span (fun b => b ≠ 34) = (xs, 34 :: ys) := by
  rw [List.span_eq_take_drop]
  induction xs with
  | nil => simp
  | cons a t ih =>
    have ha : a ≠ 34 := hx a (List.mem_cons_self a t)
    have iht := ih (fun x hxm => hx x (List.mem_cons_of_mem a hxm))
    simp only [Prod.mk.injEq, ne_eq, decide_not] at iht
    rw [List.cons_append, List.takeWhile_cons, List.dropWhile_cons]
    simp [ha, iht.1, iht.2]

theorem jsonParseT_payload (t : List Char) (ht : ∀ c ∈ t, c ≠ '"') :
    jsonParseT (strBytes (jsonPayload t)) = some (strBytes t) := by
  have hsplit : strBytes (jsonPayload t) =
      strBytes "\x7b\"t\": \"".data ++ (strBytes t ++ 34 :: [125]) := by
    rw [jsonPayload, strBytes, List.map_append, List.map_append]
    rfl
  rw [jsonParseT, hsplit, if_pos]
  · have hdrop : ((strBytes "\x7b\"t\": \"".data ++ (strBytes t ++ 34 :: [125])).drop 7) =
        strBytes t ++ 34 :: [125] := by
      rw [show (7 : Nat) = (strBytes "\x7b\"t\": \"".data).length from rfl]
      exact List.drop_left _ _
    rw [hdrop]
    have hnq : ∀ x ∈ strBytes t, x ≠ 34 := by
      intro x hxm
      rcases List.mem_map.mp hxm with ⟨c, hcm, hce⟩
      intro h34
      have : c = '"' := by
        have := congrArg Char.ofNat (hce.trans h34)
        rwa [Char.ofNat_toNat] at this
      exact ht c hcm this
    rw [span_stop_at (strBytes t) [125] hnq]
    rfl
  · exact isPrefixOf_append_self _ _

theorem bytesToChars_strBytes (t : List Char) : bytesToChars (strBytes t) = t := by
  rw [bytesToChars, strBytes, List.map_map]
  have : ∀ c ∈ t, ((fun b => Char.ofNat b) ∘ fun c => c.toNat) c = id c := by
    intro c _
    exact Char.ofNat_toNat c
  rw [List.map_congr_left this, List.map_id]

theorem encodeSyncToken_head (t : List Char) :
    ∃ r : List Char, encodeSyncToken t = 'e' :: r := by
  have h : encodeSyncToken t =
      b64encode (123 :: 34 :: 116 :: strBytes ("\": \"".data ++ t ++ "\"\x7d".data)) := rfl
  rw [h, b64encode, show charOfSextet (123 / 4) = 'e' from by decide]
  exact ⟨_, rfl⟩

/-- C6: for every valid ISO 8601 timestamp `t` — a plain-ASCII string
without `"` or `\` that `fromisoformat` accepts, denoting timestamp `ts`
— decoding the sync token produced by encoding `t` yields `ts` (never
null), and `parse_since` applied to that token yields `ts` as well (the
token starts with the letter `e`, and every string `fromisoformat`
accepts starts with a digit, so the RFC 3339 branch of `parse_since`
falls through to the token decoder). -/
theorem c6_sync_token_roundtrip (fromIso : String → Option Int) (t : String) (ts : Int)
    (hplain : ∀ c ∈ t.data, 32 ≤ c.toNat ∧ c.toNat < 127 ∧ c ≠ '"' ∧ c ≠ '\\')
    (hiso : fromIso t = some ts)
    (hdig : ∀ (s : String) (x : Int), fromIso s = some x →
      ∃ c cs, s.data = c :: cs ∧ c.isDigit = true) :
    decodeSyncToken fromIso (encodeSyncToken t.data) = some ts ∧
    parseSince fromIso (encodeSyncToken t.data) = some ts := by
  have hbytes : ∀ b ∈ strBytes (jsonPayload t.data), b < 256 := by
    intro b hb
    rcases List.mem_map.mp hb with ⟨c, hcm, hce⟩
    rw [jsonPayload] at hcm
    rcases List.mem_append.mp hcm with h | h
    · rcases List.mem_append.mp h with h2 | h2
      · have : ∀ x ∈ "\x7b\"t\": \"".data, x.toNat < 256 := by decide
        rw [← hce]; exact this c h2
      · rw [← hce]
        have := (hplain c h2).2.1
        omega
    · have : ∀ x ∈ "\"\x7d".data, x.toNat < 256 := by decide
      rw [← hce]; exact this c h
  have hdecode : b64decode (encodeSyncToken t.data) = some (strBytes (jsonPayload t.data)) :=
    b64_roundtrip _ hbytes
  have hjson : jsonParseT (strBytes (jsonPayload t.data)) = some (strBytes t.data) :=
    jsonParseT_payload t.data (fun c hc => (hplain c hc).2.2.1)
  have hmk : (⟨bytesToChars (strBytes t.data)⟩ : String) = t := by
    rw [bytesToChars_strBytes]
  have hdec : decodeSyncToken fromIso (encodeSyncToken t.data) = some ts := by
    rw [decodeSyncToken, hdecode, Option.some_bind, hjson, Option.some_bind, hmk, hiso]
  refine ⟨hdec, ?_⟩
  rw [parseSince]
  rcases hX : fromIso ⟨encodeSyncToken t.data⟩ with _ | x
  · rw [show ((none : Option Int).orElse
      (fun _ => decodeSyncToken fromIso (encodeSyncToken t.data))) =
        decodeSyncToken fromIso (encodeSyncToken t.data) from rfl]
    exact hdec
  · exfalso
    rcases hdig ⟨encodeSyncToken t.data⟩ x hX with ⟨c, cs, hdata, hd⟩
    rcases encodeSyncToken_head t.data with ⟨r, hr⟩
    have hdata2 : encodeSyncToken t.data = c :: cs := hdata
    rw [hr] at hdata2
    have hce : c = 'e' := by
      injection hdata2 with h1 _
      exact h1.symm
    rw [hce] at hd
    exact absurd hd (by decide)

/-- C6 witness: the round-trip at the concrete timestamp
`2020-01-01T00:00:00+00:00` under a concrete ISO parser. -/
theorem c6_sync_token_roundtrip_witness :
    decodeSyncToken
      (fun s => if s = "2020-01-01T00:00:00+00:00" then some 1577836800 else none)
      (encodeSyncToken "2020-01-01T00:00:00+00:00".data) = some 1577836800 ∧
    parseSince
      (fun s => if s = "2020-01-01T00:00:00+00:00" then some 1577836800 else none)
      (encodeSyncToken "2020-01-01T00:00:00+00:00".data) = some 1577836800 := by
  apply c6_sync_token_roundtrip
    (fun s => if s = "2020-01-01T00:00:00+00:00" then some 1577836800 else none)
    "2020-01-01T00:00:00+00:00" 1577836800
  · decide
  · simp
  · intro s x h
    by_cases hs : s = "2020-01-01T00:00:00+00:00"
    · refine ⟨'2', "020-01-01T00:00:00+00:00".data, ?_, by decide⟩
      rw [hs]
    · rw [if_neg hs] at h
      exact absurd h (by simp)

inductive ContentMode
  | sync
  | index
  | search
  | fetch
deriving DecidableEq

/-- The observable part of a response of the `content` endpoint: HTTP
status, the `X-OpenFeeder-Cache` header if set, and which of the four
query modes produced it (`none` for error responses, which set no cache
header). -/
structure ContentResp where
  status : Nat
  cacheHeader : Option String
  mode : Option ContentMode
deriving DecidableEq

/-- Python truthiness of an optional query string: `None` and `""` are
falsy. -/
def pyTruthy (o : Option String) : Bool :=
  match o with
  | none => false
  | some s => s ≠ ""

/-- Ambient state of the endpoint: `_last_crawl_ts`, `parse_since`,
the search results for the request's query (relevance scores, as Ints
since only ordering matters), and whether `get_page_meta` finds the
requested page. -/
structure ContentEnv where
  lastCrawlTs : Int
  parseS : String → Option Int
  searchResults : List Int
  pageFound : Bool

def errorResp (status : Nat) : ContentResp :=
  { status := status, cacheHeader := none, mode := none }

/-- `"HIT" if cached else "MISS"` with `cached = _last_crawl_ts > 0`. -/
def hitMiss (lastCrawlTs : Int) : String :=
  if 0 < lastCrawlTs then "HIT" else "MISS"

/-- `since_ts = parse_since(since) if since else None`, with `none`
denoting the parse failure that yields a 400. -/
def parseIfTruthy (p : String → Option Int) (o : Option String) : Option (Option Int) :=
  if pyTruthy o then
    match o with
    | some s => (p s).map some
    | none => none
  else some none

/-- The differential-sync branch of `content` (main.py lines 256-305):
parse `since`/`until`, reject an inverted range, otherwise answer 200
with the hard-coded header value `MISS`. -/
def syncModeResp (env : ContentEnv) (since untl : Option String) : ContentResp :=
  match parseIfTruthy env.parseS since with
  | none => errorResp 400
  | some sinceTs =>
    match parseIfTruthy env.parseS untl with
    | none => errorResp 400
    | some untilTs =>
      match sinceTs, untilTs with
      | some s, some u =>
        if u < s then errorResp 400
        else { status := 200, cacheHeader := some "MISS", mode := some ContentMode.sync }
      | _, _ => { status := 200, cacheHeader := some "MISS", mode := some ContentMode.sync }

/-- The search branch: filter by `min_score` when positive, 404 on no
results, otherwise 200 with the HIT/MISS header. -/
def searchModeResp (env : ContentEnv) (minScore : Int) : ContentResp :=
  match (if 0 < minScore then env.searchResults.filter (fun r => minScore ≤ r)
         else env.searchResults) with
  | [] => errorResp 404
  | _ :: _ =>
    { status := 200, cacheHeader := some (hitMiss env.lastCrawlTs),
      mode := some ContentMode.search }

/-- The single-page branch: 404 when the page is unknown, otherwise 200
with the HIT/MISS header; with `url = None` this branch would dereference
`None` (`url.startswith`), an unhandled 500. -/
def fetchModeResp (env : ContentEnv) (url : Option String) : ContentResp :=
  match url with
  | none => errorResp 500
  | some _ =>
    if env.pageFound then
      { status := 200, cacheHeader := some (hitMiss env.lastCrawlTs),
        mode := some ContentMode.fetch }
    else errorResp 404

/-- Dispatch of the `content` endpoint over its query parameters,
mirroring the branch order of main.py: sync when `(since or until) and
not q`, index when `url is None and q is None`, search when `q` is
truthy, single-page fetch otherwise. -/
def contentEndpoint (env : ContentEnv) (url q since untl : Option String)
    (minScore : Int) : ContentResp :=
  if (pyTruthy since || pyTruthy untl) && !pyTruthy q then
    syncModeResp env since untl
  else if url.isNone && q.isNone then
    { status := 200, cacheHeader := some (hitMiss env.lastCrawlTs),
      mode := some ContentMode.index }
  else if pyTruthy q then
    searchModeResp env minScore
  else
    fetchModeResp env url

theorem syncModeResp_cases (env : ContentEnv) (s u : Option String) :
    syncModeResp env s u = errorResp 400 ∨
    syncModeResp env s u =
      { status := 200, cacheHeader := some "MISS", mode := some ContentMode.sync } := by
  unfold syncModeResp
  repeat' split
  all_goals first
  | exact Or.inl rfl
  | exact Or.inr rfl

theorem searchModeResp_cases (env : ContentEnv) (m : Int) :
    searchModeResp env m = errorResp 404 ∨
    searchModeResp env m =
      { status := 200, cacheHeader := some (hitMiss env.lastCrawlTs),
        mode := some ContentMode.search } := by
  unfold searchModeResp
  repeat' split
  all_goals first
  | exact Or.inl rfl
  | exact Or.inr rfl

theorem fetchModeResp_cases (env : ContentEnv) (url : Option String) :
    fetchModeResp env url = errorResp 500 ∨ fetchModeResp env url = errorResp 404 ∨
    fetchModeResp env url =
      { status := 200, cacheHeader := some (hitMiss env.lastCrawlTs),
        mode := some ContentMode.fetch } := by
  unfold fetchModeResp
  repeat' split
  all_goals first
  | exact Or.inl rfl
  | exact Or.inr (Or.inl rfl)
  | exact Or.inr (Or.inr rfl)

/-- C7 counterexample: with `last_crawl_ts = 1700000000 > 0`, a
differential-sync request (`?since=` set, no `?q=`) succeeds with status
200 yet the `X-OpenFeeder-Cache` header is `MISS`, not `HIT`. -/
theorem c7_cache_header_counterexample :
    ((contentEndpoint
        { lastCrawlTs := 1700000000, parseS := fun _ => some 0,
          searchResults := [], pageFound := false }
        none none (some "2024-01-01T00:00:00+00:00") none 0).status = 200 ∧
      (contentEndpoint
        { lastCrawlTs := 1700000000, parseS := fun _ => some 0,
          searchResults := [], pageFound := false }
        none none (some "2024-01-01T00:00:00+00:00") none 0).cacheHeader =
        some "MISS") ∧
    (0 : Int) < 1700000000 := by
  decide

/-- C7 amended: a `content` response carries status 200 exactly when it
comes from one of the four non-error branches; in index, search and
single-page modes the `X-OpenFeeder-Cache` header is `HIT` iff
`last_crawl_ts > 0`, but in differential-sync mode it is always `MISS`;
error responses carry no cache header. -/
theorem c7_cache_header_amended (env : ContentEnv) (url q since untl : Option String)
    (minScore : Int) :
    ((contentEndpoint env url q since untl minScore).status = 200 ↔
      (contentEndpoint env url q since untl minScore).mode ≠ none) ∧
    (contentEndpoint env url q since untl minScore).cacheHeader =
      (match (contentEndpoint env url q since untl minScore).mode with
       | none => none
       | some ContentMode.sync => some "MISS"
       | some _ => some (hitMiss env.lastCrawlTs)) := by
  unfold contentEndpoint
  split
  · rcases syncModeResp_cases env since untl with h | h <;> rw [h] <;>
      exact ⟨by simp [errorResp], rfl⟩
  · split
    · exact ⟨by simp, rfl⟩
    · split
      · rcases searchModeResp_cases env minScore with h | h <;> rw [h] <;>
          exact ⟨by simp [errorResp], rfl⟩
      · rcases fetchModeResp_cases env url with h | h | h <;> rw [h] <;>
          exact ⟨by simp [errorResp], rfl⟩

/-- C7 witness: the amended theorem at a concrete environment and an
index-mode request. -/
theorem c7_cache_header_amended_witness :
    ((contentEndpoint
        { lastCrawlTs := 5, parseS := fun _ => none,
          searchResults := [1], pageFound := true }
        none none none none 0).status = 200 ↔
      (contentEndpoint
        { lastCrawlTs := 5, parseS := fun _ => none,
          searchResults := [1], pageFound := true }
        none none none none 0).mode ≠ none) ∧
    (contentEndpoint
        { lastCrawlTs := 5, parseS := fun _ => none,
          searchResults := [1], pageFound := true }
        none none none none 0).cacheHeader =
      (match (contentEndpoint
          { lastCrawlTs := 5, parseS := fun _ => none,
            searchResults := [1], pageFound := true }
          none none none none 0).mode with
       | none => none
       | some ContentMode.sync => some "MISS"
       | some _ => some (hitMiss 5)) :=
  c7_cache_header_amended
    { lastCrawlTs := 5, parseS := fun _ => none,
      searchResults := [1], pageFound := true }
    none none none none 0
